import Mathlib

/-!
# glide: dependency guessing (`cmd/guess_deps.go`)

A shallow embedding of `GuessDeps`, `findDeps` and `compactDeps`, together with the
parts of the Go standard library they call (`strings.SplitN`, `strings.Join`,
`go/build.Import`, `os.Getwd`), and theorems about them.

Go strings are modelled by `String`; the byte `/` is a one-byte code point, so splitting
on it commutes with UTF-8 decoding and the character-level functions below split at
the places where Go splits.
-/

namespace Glide

/-! ## Strings -/

/-- The separator `"/"` that `compactDeps` passes to `strings.SplitN` and `strings.Join`. -/
def slash : Char := '/'

/-- First occurrence of the separator (`strings.Index` followed by the two slices
`s[:m]` and `s[m+len(sep):]` of `genSplit`): `none` when the separator is absent. -/
def cut (sep : Char) : List Char → Option (List Char × List Char)
  | [] => none
  | c :: cs =>
    if c = sep then some ([], cs)
    else match cut sep cs with
      | none => none
      | some (a, rest) => some (c :: a, rest)

/-- Go `strings.SplitN(s, sep, n)` for a one-byte separator and `n ≥ 0`: `n = 0` gives
the empty slice, otherwise at most `n` substrings, the last being the unsplit rest. -/
def splitN (sep : Char) : Nat → List Char → List (List Char)
  | 0, _ => []
  | 1, s => [s]
  | n + 2, s =>
    match cut sep s with
    | none => [s]
    | some (a, rest) => a :: splitN sep (n + 1) rest

/-- Go `strings.Join(a, sep)`. -/
def join (sep : Char) : List (List Char) → List Char
  | [] => []
  | [a] => a
  | a :: b :: rest => a ++ sep :: join sep (b :: rest)

/-- Go `strings.SplitN(k, "/", 4)` on a string. -/
def SplitN4 (k : String) : List String :=
  (splitN slash 4 k.data).map String.mk

/-- Go `strings.Join(parts, "/")` on strings. -/
def Join (parts : List String) : String :=
  String.mk (join slash (parts.map String.data))

/-! ## `compactDeps` -/

/-- The key that one iteration of the loop of `compactDeps` stores for the key `k`:
`k` itself when `SplitN(k, "/", 4)` has fewer than four parts, and otherwise
`strings.Join(parts[0:3], "/")`. -/
def basePackage (k : String) : String :=
  let parts := SplitN4 k
  if parts.length < 4 then k else Join (parts.take 3)

/-- One iteration of the loop of `compactDeps`: `basePackages[...] = true`. -/
def compactStep (k : String) (basePackages : Finset String) : Finset String :=
  insert (basePackage k) basePackages

instance compactStep_leftComm : LeftCommutative compactStep :=
  ⟨fun a b s => by unfold compactStep; exact Finset.Insert.comm _ _ _⟩

/-- The function `compactDeps`. A `map[string]bool` in which every stored value is `true`
is a finite set of keys. The `range` loop visits the keys in an unspecified order; the
loop body commutes with itself, so the fold is over the key multiset. -/
def compactDeps (soFar : Finset String) : Finset String :=
  Multiset.foldr compactStep ∅ soFar.val

/-! ## Specification-side definitions for the compactor -/

/-- All `/`-separated segments of a path (Go `strings.Split(s, "/")`). -/
def segments (sep : Char) : List Char → List (List Char)
  | [] => [[]]
  | c :: cs =>
    if c = sep then [] :: segments sep cs
    else match segments sep cs with
      | [] => [[c]]
      | s :: ss => (c :: s) :: ss

/-- The segments of a path, as strings. -/
def pathSegments (p : String) : List String :=
  (segments slash p.data).map String.mk

/-- The canonical root as the specification words it: the first three segments joined by
the separator when the path has four or more segments, and the path unchanged
otherwise. -/
def canonicalRoot (p : String) : String :=
  if 4 ≤ (pathSegments p).length then Join ((pathSegments p).take 3) else p

/-! ## The host toolchain -/

/-- A Go `error` value. -/
abbrev Error := String

/-- The fields of `go/build.Package` that `findDeps` reads. -/
structure Package where
  ImportPath : String
  Imports : List String
  Goroot : Bool
  deriving DecidableEq, Repr

/-- The two calls `findDeps` makes into the host: `os.Getwd()` and
`build.Import(name, cwd, 0)`. -/
structure Env where
  Getwd : Except Error String
  Import : String → String → Except Error Package

/-- What a call of `findDeps` leaves behind: the map `soFar` after the call and the
returned `error` (`none` is `nil`). -/
abbrev Walked := Finset String × Option Error

/-! ## `findDeps` -/

/-- The loop `for _, imp := range pkg.Imports` of `findDeps`, over the recursive call. An import
already marked is skipped; the first error returned by a recursive call is
returned at once. `none` is a recursive call that did not return. -/
def rangeImports (call : Finset String → String → Option Walked) :
    Finset String → List String → Option Walked
  | soFar, [] => some (soFar, none)
  | soFar, imp :: rest =>
    if imp ∈ soFar then rangeImports call soFar rest
    else match call soFar imp with
      | none => none
      | some (soFar', some err) => some (soFar', some err)
      | some (soFar', none) => rangeImports call soFar' rest

/-- The function `findDeps`, with the recursion depth bounded by `fuel`: `none` when the
bound is reached. -/
def findDeps (env : Env) : Nat → Finset String → String → Option Walked
  | 0, _, _ => none
  | fuel + 1, soFar, name =>
    match env.Getwd with
    | .error err => some (soFar, some err)
    | .ok cwd =>
      match env.Import name cwd with
      | .error err => some (soFar, some err)
      | .ok pkg =>
        if pkg.Goroot then some (soFar, none)
        else rangeImports (findDeps env fuel) (insert pkg.ImportPath soFar) pkg.Imports

/-! ## `GuessDeps` -/

/-- Modelled from the spec: the type `Dependency` is declared in a file of the package
that is not among the sources; `GuessDeps` sets its field `Name` and leaves the others
at their zero value ("DependencyRecord: a canonical root plus optional display name"). -/
structure Dependency where
  Name : String
  deriving DecidableEq, Repr

/-- Modelled from the spec: the type `Config` is declared in a file of the package that
is not among the sources; `GuessDeps` sets its field `Imports` ("an ordered sequence of
DependencyRecord"). -/
structure Config where
  Imports : List Dependency
  deriving DecidableEq, Repr

/-- The order in which one `range` loop over a `map[string]bool` yields the keys: every
key once, in an order the language leaves unspecified. -/
structure RangeOrder where
  keys : Finset String → List String
  nodup : ∀ s, (keys s).Nodup
  mem_keys : ∀ s k, k ∈ keys s ↔ k ∈ s

/-- What `GuessDeps` returns: the `*Config` (`none` is `nil`) and the error. -/
abbrev Guessed := Option Config × Option Error

/-- The function `GuessDeps`. The parameter `dirname` is `p.Get("dirname", ".")`; the
call of `Info` only writes a log line and is left out. `none` is a walk that did not
return within `fuel`. -/
def GuessDeps (env : Env) (order : RangeOrder) (fuel : Nat) (dirname : Option String) :
    Option Guessed :=
  let base := dirname.getD "."
  match findDeps env fuel ∅ base with
  | none => none
  | some (deps, err) =>
    let deps := compactDeps deps
    let deps := deps.erase base
    match err with
    | some e => some (none, some e)
    | none => some (some ⟨(order.keys deps).map fun p => ⟨p⟩⟩, none)

/-- The range order that yields the keys of the map with key list `l` in the order of `l`,
and the keys of any other map in ascending order. -/
def pinned (l : List String) (hl : l.Nodup) : RangeOrder where
  keys s := if s = l.toFinset then l else s.sort (· ≤ ·)
  nodup s := by
    by_cases h : s = l.toFinset
    · simp only [h, if_true]; exact hl
    · simp only [h, if_false]; exact Finset.sort_nodup _ s
  mem_keys s k := by
    by_cases h : s = l.toFinset
    · simp only [h, if_true]; exact List.mem_toFinset.symm
    · simp only [h, if_false]; exact Finset.mem_sort _

/-- An environment given by a table of packages: `Getwd` succeeds and `Import` looks the
name up, failing on a name that is not in the table. -/
def tableEnv (table : List (String × Package)) : Env where
  Getwd := .ok "/work"
  Import name _ :=
    match table.lookup name with
    | some pkg => .ok pkg
    | none => .error ("cannot find package " ++ name)

/-! ## Specification-side definitions for the walk -/

/-- The two host calls at the head of `findDeps` taken together: the package that `name`
resolves to, or the error of `os.Getwd` or of `build.Import`. -/
def Env.resolve (env : Env) (name : String) : Except Error Package :=
  match env.Getwd with
  | .error err => .error err
  | .ok cwd => env.Import name cwd

/-- The names the walk from `root` can come to resolve: `root` itself, and every import of
a package outside the base distribution that a name already reached resolves to. -/
inductive Reached (env : Env) (root : String) : String → Prop
  | root : Reached env root root
  | step {n i : String} {pkg : Package} :
      Reached env root n → env.resolve n = .ok pkg → pkg.Goroot = false →
      i ∈ pkg.Imports → Reached env root i

/-- An import `i` is covered by a visited set when it is marked, or resolves to a package
that belongs to the base distribution or whose import path is marked. -/
def Covered (env : Env) (S : Finset String) (i : String) : Prop :=
  i ∈ S ∨ ∃ pkg, env.resolve i = .ok pkg ∧ (pkg.Goroot = true ∨ pkg.ImportPath ∈ S)

/-- A path the walk from `root` can come to mark: the import path of a package outside
the base distribution that a reached name resolves to. -/
def Markable (env : Env) (root p : String) : Prop :=
  ∃ n pkg, Reached env root n ∧ env.resolve n = .ok pkg ∧ pkg.Goroot = false ∧
    pkg.ImportPath = p

/-- A marked path `p` is settled in a visited set when it is the import path of a package
outside the base distribution, resolved from a reached name, all of whose imports are
covered. -/
def Settled (env : Env) (root : String) (S : Finset String) (p : String) : Prop :=
  ∃ n pkg, Reached env root n ∧ env.resolve n = .ok pkg ∧ pkg.Goroot = false ∧
    pkg.ImportPath = p ∧ ∀ i ∈ pkg.Imports, Covered env S i

/-- A finite import graph below `root`: a finite set `U` of names that holds the imports
of the package `root` resolves to and of every package a name of `U` resolves to, the
packages resolved from names of `U` carrying the name as their import path. -/
def FiniteBelow (env : Env) (root : String) (U : Finset String) : Prop :=
  (∀ pkg, env.resolve root = .ok pkg → ∀ i ∈ pkg.Imports, i ∈ U) ∧
  ∀ n ∈ U, ∀ pkg, env.resolve n = .ok pkg →
    pkg.ImportPath = n ∧ ∀ i ∈ pkg.Imports, i ∈ U

/-- Resolving the import path of the package that `root` resolves to gives that package
again: the import path is a name of the package. -/
def RootCanonical (env : Env) (root : String) : Prop :=
  ∀ pkg, env.resolve root = .ok pkg → env.resolve pkg.ImportPath = .ok pkg

/-- An import graph: for each import path its immediate imports and whether it belongs to
the base distribution. -/
structure ImportGraph where
  immediate : String → List String
  goroot : String → Bool

/-- The environment in which every import path resolves to the descriptor the graph gives
it, carrying that path. -/
def ImportGraph.env (g : ImportGraph) (cwd : String) : Env where
  Getwd := .ok cwd
  Import name _ := .ok ⟨name, g.immediate name, g.goroot name⟩

/-- The transitive closure as the specification words it: the paths outside the base
distribution that can be reached from `root` along import edges, `root` itself excluded. -/
def SpecClosure (g : ImportGraph) (root p : String) : Prop :=
  Relation.ReflTransGen (fun a b => b ∈ g.immediate a) root p ∧ g.goroot p = false ∧ p ≠ root

/-- A project `host/org/self` that imports `host/org/dep`, which imports nothing; no
package belongs to the base distribution. -/
def selfAndDep : ImportGraph where
  immediate n := if n = "host/org/self" then ["host/org/dep"] else []
  goroot _ := false

/-- Two packages that import each other, the first also importing itself. -/
def cyclic : ImportGraph where
  immediate n := if n = "host/a" then ["host/a", "host/b"] else if n = "host/b" then ["host/a"] else []
  goroot _ := false

/-- The names of the records of a configuration, in order. -/
def Config.names (c : Config) : List String :=
  c.Imports.map fun d => d.Name

/-- A project in the working directory that imports `host/org/dep`, which imports
`host/org/missing`, which cannot be found. -/
def missingDep : Env :=
  tableEnv [(".", ⟨".", ["host/org/dep"], false⟩),
    ("host/org/dep", ⟨"host/org/dep", ["host/org/missing"], false⟩)]

/-- A project in the working directory that imports `host/org/a` and `host/org/b`. -/
def twoDeps : Env :=
  tableEnv [(".", ⟨".", ["host/org/a", "host/org/b"], false⟩),
    ("host/org/a", ⟨"host/org/a", [], false⟩),
    ("host/org/b", ⟨"host/org/b", [], false⟩)]

/-- A project whose directory lies inside the workspace, so that `.` resolves to the import
path `host/org/self`; it imports its own subpackage `host/org/self/util` and
`host/org/dep`. -/
def inGopath : Env :=
  tableEnv [(".", ⟨"host/org/self", ["host/org/self/util", "host/org/dep"], false⟩),
    ("host/org/self", ⟨"host/org/self", ["host/org/self/util", "host/org/dep"], false⟩),
    ("host/org/self/util", ⟨"host/org/self/util", [], false⟩),
    ("host/org/dep", ⟨"host/org/dep", [], false⟩)]

/-- A project whose directory lies inside the workspace, so that `.` resolves to the import
path `host/org/self`; it imports only the base-distribution packages `fmt` and
`os`. -/
def selfContained : Env :=
  tableEnv [(".", ⟨"host/org/self", ["fmt", "os"], false⟩),
    ("fmt", ⟨"fmt", [], true⟩),
    ("os", ⟨"os", [], true⟩)]

/-- A project whose directory lies inside the workspace, so that `.` resolves to the package
with path `host/org/self`, and whose source imports `.`, the package itself. -/
def selfDot : Env :=
  tableEnv [(".", ⟨"host/org/self", ["."], false⟩),
    ("host/org/self", ⟨"host/org/self", ["."], false⟩)]

/-- A path is a base-distribution path when some name resolves to a package that carries
it and is flagged as belonging to the base distribution. -/
def BasePath (env : Env) (p : String) : Prop :=
  ∃ n pkg, env.resolve n = .ok pkg ∧ pkg.ImportPath = p ∧ pkg.Goroot = true

/-- The base-distribution flag is a property of the path: two resolved packages that carry
the same path carry the same flag. -/
def FlagByPath (env : Env) : Prop :=
  ∀ n m p q, env.resolve n = .ok p → env.resolve m = .ok q →
    p.ImportPath = q.ImportPath → p.Goroot = q.Goroot

/-- Two outcomes of resolving a name that differ at most in the order of the immediate imports:
the same error, or packages with the same path, the same flag and the same imports
up to a permutation. -/
def SameUpToOrder : Except Error Package → Except Error Package → Prop
  | .ok p, .ok q => p.ImportPath = q.ImportPath ∧ p.Goroot = q.Goroot ∧ p.Imports.Perm q.Imports
  | .error e, .error f => e = f
  | _, _ => False

/-- The table with the immediate imports of every package in reverse order. -/
def reversedImports (table : List (String × Package)) : List (String × Package) :=
  table.map fun e => (e.1, ⟨e.2.ImportPath, e.2.Imports.reverse, e.2.Goroot⟩)

/-- A project `host/org/self` that imports the base-distribution package `fmt` and
`host/org/dep`. -/
def withBase : ImportGraph where
  immediate n := if n = "host/org/self" then ["fmt", "host/org/dep"] else []
  goroot n := decide (n = "fmt")

/-- A project in the working directory that imports the base-distribution package `fmt`,
whose own import `internal/missing` cannot be found. -/
def beneathBase : Env :=
  tableEnv [(".", ⟨".", ["fmt"], false⟩), ("fmt", ⟨"fmt", ["internal/missing"], true⟩)]

/-- A project in the working directory that imports `host/org/a` and `host/org/b`, which
both import `host/org/c`. -/
def diamondTable : List (String × Package) :=
  [(".", ⟨".", ["host/org/a", "host/org/b"], false⟩),
    ("host/org/a", ⟨"host/org/a", ["host/org/c"], false⟩),
    ("host/org/b", ⟨"host/org/b", ["host/org/c"], false⟩),
    ("host/org/c", ⟨"host/org/c", [], false⟩)]

/-! ## Lemmas on splitting and joining -/

theorem segments_cons (sep c : Char) (cs : List Char) :
    segments sep (c :: cs) =
      if c = sep then [] :: segments sep cs
      else match segments sep cs with
        | [] => [[c]]
        | s :: ss => (c :: s) :: ss := by
  rw [segments]

theorem cut_cons (sep c : Char) (cs : List Char) :
    cut sep (c :: cs) =
      if c = sep then some ([], cs)
      else match cut sep cs with
        | none => none
        | some (a, rest) => some (c :: a, rest) := by
  rw [cut]

theorem splitN_succ_succ (sep : Char) (n : Nat) (s : List Char) :
    splitN sep (n + 2) s =
      match cut sep s with
      | none => [s]
      | some (a, rest) => a :: splitN sep (n + 1) rest := by
  rw [splitN]

theorem segments_ne_nil (sep : Char) (s : List Char) : segments sep s ≠ [] := by
  induction s with
  | nil => simp [segments]
  | cons c cs ih =>
    rw [segments_cons]
    split
    · simp
    · split <;> simp

theorem segments_length_pos (sep : Char) (s : List Char) : 0 < (segments sep s).length :=
  List.length_pos.mpr (segments_ne_nil sep s)

/-- The segments, one cut at a time. -/
theorem segments_cut (sep : Char) (s : List Char) :
    segments sep s =
      match cut sep s with
      | none => [s]
      | some (a, rest) => a :: segments sep rest := by
  induction s with
  | nil => simp [segments, cut]
  | cons c cs ih =>
    rw [segments_cons, cut_cons]
    by_cases h : c = sep
    · simp [h]
    · simp only [h, if_false]
      rw [ih]
      cases hc : cut sep cs with
      | none => simp
      | some ar => obtain ⟨a, r⟩ := ar; simp

theorem splitN_succ_length (sep : Char) (n : Nat) (s : List Char) :
    (splitN sep (n + 1) s).length = min (n + 1) (segments sep s).length := by
  induction n generalizing s with
  | zero =>
    have := segments_length_pos sep s
    simp [splitN]; omega
  | succ n ih =>
    rw [segments_cut, splitN_succ_succ]
    cases hc : cut sep s with
    | none => simp
    | some ar =>
      obtain ⟨a, r⟩ := ar
      simp only [List.length_cons, ih r]
      omega

theorem splitN_succ_take (sep : Char) (n : Nat) (s : List Char) :
    (splitN sep (n + 1) s).take n = (segments sep s).take n := by
  induction n generalizing s with
  | zero => simp
  | succ n ih =>
    rw [segments_cut, splitN_succ_succ]
    cases hc : cut sep s with
    | none => simp
    | some ar =>
      obtain ⟨a, r⟩ := ar
      simp only [List.take_succ_cons, ih r]

theorem join_cons_of_ne_nil (sep : Char) (a : List Char) (l : List (List Char)) (h : l ≠ []) :
    join sep (a :: l) = a ++ sep :: join sep l := by
  cases l with
  | nil => exact absurd rfl h
  | cons b rest => rfl

theorem join_segments (sep : Char) (s : List Char) : join sep (segments sep s) = s := by
  induction s with
  | nil => simp [segments, join]
  | cons c cs ih =>
    rw [segments_cons]
    by_cases h : c = sep
    · simp only [h, if_true]
      rw [join_cons_of_ne_nil sep [] _ (segments_ne_nil sep cs), ih]; simp
    · simp only [h, if_false]
      cases hs : segments sep cs with
      | nil => exact absurd hs (segments_ne_nil sep cs)
      | cons a l =>
        rw [hs] at ih
        cases l with
        | nil => simp only [join] at ih ⊢; rw [ih]
        | cons b rest =>
          simp only [join] at ih ⊢
          rw [← ih]; simp

theorem segments_no_sep (sep : Char) (s : List Char) :
    ∀ a ∈ segments sep s, sep ∉ a := by
  induction s with
  | nil => simp [segments]
  | cons c cs ih =>
    rw [segments_cons]
    by_cases h : c = sep
    · simp only [h, if_true]
      intro a ha
      rcases List.mem_cons.mp ha with rfl | ha
      · simp
      · exact ih a ha
    · simp only [h, if_false]
      cases hs : segments sep cs with
      | nil => exact absurd hs (segments_ne_nil sep cs)
      | cons b l =>
        rw [hs] at ih
        intro a ha
        rcases List.mem_cons.mp ha with rfl | ha
        · intro hm
          rcases List.mem_cons.mp hm with e | hm
          · exact h e.symm
          · exact ih b (List.mem_cons_self _ _) hm
        · exact ih a (List.mem_cons_of_mem _ ha)

theorem segments_of_no_sep (sep : Char) (a : List Char) (h : sep ∉ a) :
    segments sep a = [a] := by
  induction a with
  | nil => rfl
  | cons c cs ih =>
    have hc : c ≠ sep := fun e => h (e ▸ List.mem_cons_self _ _)
    have hcs : sep ∉ cs := fun hm => h (List.mem_cons_of_mem _ hm)
    rw [segments_cons]
    simp [hc, ih hcs]

theorem segments_append_sep (sep : Char) (a r : List Char) (h : sep ∉ a) :
    segments sep (a ++ sep :: r) = a :: segments sep r := by
  induction a with
  | nil => simp [segments]
  | cons c cs ih =>
    have hc : c ≠ sep := fun e => h (e ▸ List.mem_cons_self _ _)
    have hcs : sep ∉ cs := fun hm => h (List.mem_cons_of_mem _ hm)
    rw [List.cons_append]
    rw [segments_cons]
    simp [hc, ih hcs]

/-- Joining separator-free pieces and splitting again gives the pieces back. -/
theorem segments_join (sep : Char) (l : List (List Char)) (hl : l ≠ [])
    (h : ∀ a ∈ l, sep ∉ a) : segments sep (join sep l) = l := by
  induction l with
  | nil => exact absurd rfl hl
  | cons a rest ih =>
    cases rest with
    | nil => simpa [join] using segments_of_no_sep sep a (h a (List.mem_cons_self _ _))
    | cons b rest2 =>
      rw [join_cons_of_ne_nil sep a _ (by simp),
        segments_append_sep sep a _ (h a (List.mem_cons_self _ _)),
        ih (by simp) (fun x hx => h x (List.mem_cons_of_mem _ hx))]

/-- Appending a separator and more text appends the segments of that text. -/
theorem segments_append_sep_length (sep : Char) (a r : List Char) :
    (segments sep (a ++ sep :: r)).length = (segments sep a).length + (segments sep r).length := by
  induction a with
  | nil => simp [segments]; omega
  | cons c cs ih =>
    rw [List.cons_append, segments_cons, segments_cons]
    by_cases h : c = sep
    · simp only [h, if_true, List.length_cons, ih]; omega
    · simp only [h, if_false]
      cases hs : segments sep (cs ++ sep :: r) with
      | nil => exact absurd hs (segments_ne_nil sep _)
      | cons x l =>
        cases hs2 : segments sep cs with
        | nil => exact absurd hs2 (segments_ne_nil sep _)
        | cons y l2 =>
          rw [hs, hs2] at ih
          simpa using ih

/-! ## Lemmas on `basePackage` and `compactDeps` -/

theorem SplitN4_length (k : String) :
    (SplitN4 k).length = min 4 (pathSegments k).length := by
  simp [SplitN4, pathSegments, splitN_succ_length]

theorem SplitN4_take (k : String) : (SplitN4 k).take 3 = (pathSegments k).take 3 := by
  simp only [SplitN4, pathSegments, ← List.map_take]
  rw [splitN_succ_take slash 3 k.data]

theorem Join_pathSegments (p : String) : Join (pathSegments p) = p := by
  simp only [Join, pathSegments, List.map_map]
  have : (String.data ∘ String.mk) = id := by funext l; rfl
  rw [this, List.map_id, join_segments]

theorem pathSegments_length_pos (p : String) : 0 < (pathSegments p).length := by
  simp only [pathSegments, List.length_map]; exact segments_length_pos _ _

theorem pathSegments_no_slash (p : String) : ∀ a ∈ pathSegments p, slash ∉ a.data := by
  intro a ha
  simp only [pathSegments, List.mem_map] at ha
  obtain ⟨l, hl, rfl⟩ := ha
  exact segments_no_sep slash p.data l hl

theorem pathSegments_Join (l : List String) (hl : l ≠ []) (h : ∀ a ∈ l, slash ∉ a.data) :
    pathSegments (Join l) = l := by
  simp only [pathSegments, Join]
  rw [segments_join slash (l.map String.data) (by simpa using hl)
    (by intro a ha; simp only [List.mem_map] at ha; obtain ⟨b, hb, rfl⟩ := ha; exact h b hb)]
  simp only [List.map_map]
  have : (String.mk ∘ String.data) = id := by funext l; rfl
  rw [this, List.map_id]

/-- The loop body of `compactDeps` computes the canonical root of the specification. -/
theorem basePackage_eq_canonicalRoot (p : String) : basePackage p = canonicalRoot p := by
  unfold basePackage canonicalRoot
  simp only [SplitN4_length, SplitN4_take]
  by_cases h : 4 ≤ (pathSegments p).length
  · have : ¬ min 4 (pathSegments p).length < 4 := by omega
    simp [h, this]
  · have : min 4 (pathSegments p).length < 4 := by omega
    simp [h, this]

/-- A path of at least three segments is stored under its first three segments. -/
theorem basePackage_of_three_le (p : String) (h : 3 ≤ (pathSegments p).length) :
    basePackage p = Join ((pathSegments p).take 3) := by
  rw [basePackage_eq_canonicalRoot]
  unfold canonicalRoot
  by_cases h4 : 4 ≤ (pathSegments p).length
  · simp [h4]
  · have h3 : (pathSegments p).length = 3 := by omega
    simp only [h4, if_false]
    rw [List.take_of_length_le (by omega), Join_pathSegments]

/-- A path of fewer than four segments is stored unchanged. -/
theorem basePackage_of_lt_four (p : String) (h : (pathSegments p).length < 4) :
    basePackage p = p := by
  rw [basePackage_eq_canonicalRoot]
  unfold canonicalRoot
  simp [Nat.not_le.mpr h]

theorem pathSegments_Join_take_three (p : String) (h : 3 ≤ (pathSegments p).length) :
    pathSegments (Join ((pathSegments p).take 3)) = (pathSegments p).take 3 := by
  apply pathSegments_Join
  · intro hnil
    have := congrArg List.length hnil
    rw [List.length_take, List.length_nil] at this; omega
  · intro a ha
    exact pathSegments_no_slash p a (List.mem_of_mem_take ha)

/-- Every stored key has at most three segments. -/
theorem pathSegments_basePackage_le (p : String) :
    (pathSegments (basePackage p)).length ≤ 3 := by
  by_cases h : (pathSegments p).length < 4
  · rw [basePackage_of_lt_four p h]; omega
  · rw [basePackage_of_three_le p (by omega), pathSegments_Join_take_three p (by omega)]
    simp

theorem basePackage_idem (p : String) : basePackage (basePackage p) = basePackage p :=
  basePackage_of_lt_four _ (by have := pathSegments_basePackage_le p; omega)

theorem compactDeps_insert (a : String) (S : Finset String) (h : a ∉ S) :
    compactDeps (insert a S) = insert (basePackage a) (compactDeps S) := by
  unfold compactDeps
  rw [Finset.insert_val_of_not_mem h, Multiset.foldr_cons]
  rfl

/-- The loop of `compactDeps` builds the image of the key set under the loop body. -/
theorem compactDeps_eq_image (S : Finset String) : compactDeps S = S.image basePackage := by
  induction S using Finset.induction_on with
  | empty => rfl
  | insert h ih => rw [compactDeps_insert _ _ h, ih, Finset.image_insert]

theorem mem_compactDeps {S : Finset String} {x : String} :
    x ∈ compactDeps S ↔ ∃ p ∈ S, basePackage p = x := by
  rw [compactDeps_eq_image, Finset.mem_image]

theorem pathSegments_append_slash_length (x r : String) :
    (pathSegments (x ++ "/" ++ r)).length = (pathSegments x).length + (pathSegments r).length := by
  simp only [pathSegments, List.length_map, String.data_append]
  rw [List.append_assoc, List.singleton_append]
  exact segments_append_sep_length slash x.data r.data

/-! ## Theorems on the compactor -/

/-- C1. For every set `S` of import paths, `compactDeps S` is exactly the set of the
canonical roots of the elements of `S`, the canonical root of a path being its first three
segments joined by `/` when it has four or more segments and the path itself otherwise;
and `compactDeps {host/org/repo/sub1, host/org/repo/sub2, host/org2/tool}` is
`{host/org/repo, host/org2/tool}`. -/
theorem compactDeps_eq_canonicalRoots :
    (∀ S : Finset String, compactDeps S = S.image canonicalRoot) ∧
    compactDeps {"host/org/repo/sub1", "host/org/repo/sub2", "host/org2/tool"} =
      {"host/org/repo", "host/org2/tool"} := by
  refine ⟨?_, by decide⟩
  intro S
  rw [compactDeps_eq_image]
  exact Finset.image_congr (fun p _ => basePackage_eq_canonicalRoot p)

/-- C2. `compactDeps` is idempotent on every set of import paths, whatever the paths look
like (empty segments, leading or trailing slashes included). -/
theorem compactDeps_idempotent (S : Finset String) :
    compactDeps (compactDeps S) = compactDeps S := by
  simp only [compactDeps_eq_image, Finset.image_image]
  exact Finset.image_congr (fun p _ => basePackage_idem p)

/-- C3, as stated, fails: `gopkg.in/yaml.v2` and `gopkg.in/yaml.v2/internal` are both kept
by `compactDeps`, they are distinct, and the second is the first followed by `/` and a
further segment. -/
theorem compactDeps_keeps_strict_prefix :
    "gopkg.in/yaml.v2" ∈ compactDeps {"gopkg.in/yaml.v2", "gopkg.in/yaml.v2/internal"} ∧
    "gopkg.in/yaml.v2/internal" ∈ compactDeps {"gopkg.in/yaml.v2", "gopkg.in/yaml.v2/internal"} ∧
    "gopkg.in/yaml.v2" ≠ "gopkg.in/yaml.v2/internal" ∧
    "gopkg.in/yaml.v2/internal" = "gopkg.in/yaml.v2" ++ "/" ++ "internal" := by
  decide

/-- C3, amended. When an element of `compactDeps S` is a strict path-prefix of another
element (the other is that element followed by `/` and further segments), the prefix has
fewer than three segments: no element of three segments is a strict path-prefix of an
element. -/
theorem compactDeps_strict_prefix_short (S : Finset String) (x y r : String)
    (_ : x ∈ compactDeps S) (hy : y ∈ compactDeps S) (hxy : y = x ++ "/" ++ r) :
    (pathSegments x).length < 3 := by
  obtain ⟨q, _, rfl⟩ := mem_compactDeps.mp hy
  have hle := pathSegments_basePackage_le q
  rw [hxy, pathSegments_append_slash_length] at hle
  have := pathSegments_length_pos r
  omega

theorem compactDeps_strict_prefix_short_witness :
    (pathSegments "gopkg.in/yaml.v2").length < 3 :=
  compactDeps_strict_prefix_short {"gopkg.in/yaml.v2", "gopkg.in/yaml.v2/internal"}
    "gopkg.in/yaml.v2" "gopkg.in/yaml.v2/internal" "internal"
    (by decide) (by decide) (by decide)

/-- C4. Two paths of a set `S` that each have at least three segments and agree on their
first three segments are stored by `compactDeps` under one and the same key, those three
segments joined by `/`, and that key is in `compactDeps S`; and
`compactDeps {github.com/Masterminds/cookoo, github.com/Masterminds/cookoo/io}` is the
one-element set `{github.com/Masterminds/cookoo}`. -/
theorem compactDeps_merges_subpackages :
    (∀ (S : Finset String) (p q : String), p ∈ S → q ∈ S →
      3 ≤ (pathSegments p).length → 3 ≤ (pathSegments q).length →
      (pathSegments p).take 3 = (pathSegments q).take 3 →
      basePackage p = Join ((pathSegments p).take 3) ∧
      basePackage q = Join ((pathSegments p).take 3) ∧
      Join ((pathSegments p).take 3) ∈ compactDeps S) ∧
    compactDeps {"github.com/Masterminds/cookoo", "github.com/Masterminds/cookoo/io"} =
      {"github.com/Masterminds/cookoo"} := by
  refine ⟨?_, by decide⟩
  intro S p q hp _ h3p h3q hpq
  refine ⟨basePackage_of_three_le p h3p, ?_, ?_⟩
  · rw [hpq]; exact basePackage_of_three_le q h3q
  · exact mem_compactDeps.mpr ⟨p, hp, basePackage_of_three_le p h3p⟩

theorem compactDeps_merges_subpackages_witness :
    basePackage "github.com/Masterminds/cookoo" = Join ["github.com", "Masterminds", "cookoo"] ∧
    basePackage "github.com/Masterminds/cookoo/io" = Join ["github.com", "Masterminds", "cookoo"] ∧
    Join ["github.com", "Masterminds", "cookoo"] ∈
      compactDeps {"github.com/Masterminds/cookoo", "github.com/Masterminds/cookoo/io"} :=
  compactDeps_merges_subpackages.1
    {"github.com/Masterminds/cookoo", "github.com/Masterminds/cookoo/io"}
    "github.com/Masterminds/cookoo" "github.com/Masterminds/cookoo/io"
    (by decide) (by decide) (by decide) (by decide) (by decide)

/-! ## Lemmas on `findDeps` -/

theorem findDeps_succ (env : Env) (fuel : Nat) (soFar : Finset String) (name : String) :
    findDeps env (fuel + 1) soFar name =
      match env.resolve name with
      | .error err => some (soFar, some err)
      | .ok pkg =>
        if pkg.Goroot then some (soFar, none)
        else rangeImports (findDeps env fuel) (insert pkg.ImportPath soFar) pkg.Imports := by
  rw [findDeps]
  unfold Env.resolve
  cases env.Getwd <;> rfl

theorem rangeImports_cons (call : Finset String → String → Option Walked)
    (soFar : Finset String) (imp : String) (rest : List String) :
    rangeImports call soFar (imp :: rest) =
      if imp ∈ soFar then rangeImports call soFar rest
      else match call soFar imp with
        | none => none
        | some (soFar', some err) => some (soFar', some err)
        | some (soFar', none) => rangeImports call soFar' rest := by
  rw [rangeImports]

/-- A rule for the import loop: a relation between the map before and the outcome that
holds of doing nothing, is kept by skipping, and composes with a recursive call, holds of
the loop. -/
theorem rangeImports_rule (call : Finset String → String → Option Walked)
    (P : Finset String → List String → Walked → Prop)
    (hnil : ∀ s, P s [] (s, none))
    (hskip : ∀ s i rest r, i ∈ s → P s rest r → P s (i :: rest) r)
    (herr : ∀ s i rest s1 e, i ∉ s → call s i = some (s1, some e) → P s (i :: rest) (s1, some e))
    (hok : ∀ s i rest s1 r, i ∉ s → call s i = some (s1, none) → P s1 rest r →
      P s (i :: rest) r) :
    ∀ imps s r, rangeImports call s imps = some r → P s imps r := by
  intro imps
  induction imps with
  | nil =>
    intro s r h
    simp only [rangeImports, Option.some.injEq] at h
    subst h; exact hnil s
  | cons i rest ih =>
    intro s r h
    rw [rangeImports_cons] at h
    by_cases hi : i ∈ s
    · simp only [hi, if_true] at h
      exact hskip s i rest r hi (ih s r h)
    · simp only [hi, if_false] at h
      cases hc : call s i with
      | none => simp [hc] at h
      | some w =>
        obtain ⟨s1, e⟩ := w
        cases e with
        | none =>
          simp only [hc] at h
          exact hok s i rest s1 r hi hc (ih s1 r h)
        | some e =>
          simp only [hc, Option.some.injEq] at h
          subst h; exact herr s i rest s1 e hi hc

/-- The map only grows: every key present before a call is present after it. -/
theorem findDeps_mono (env : Env) :
    ∀ fuel soFar name r, findDeps env fuel soFar name = some r → soFar ⊆ r.1 := by
  intro fuel
  induction fuel with
  | zero => intro soFar name r h; simp [findDeps] at h
  | succ fuel ih =>
    intro soFar name r h
    rw [findDeps_succ] at h
    cases hres : env.resolve name with
    | error e =>
      simp only [hres, Option.some.injEq] at h
      subst h; exact Finset.Subset.refl _
    | ok pkg =>
      simp only [hres] at h
      by_cases hg : pkg.Goroot = true
      · simp only [hg, if_true, Option.some.injEq] at h
        subst h; exact Finset.Subset.refl _
      · simp only [hg, if_false] at h
        have hloop := rangeImports_rule (findDeps env fuel) (fun s _ r => s ⊆ r.1)
          (fun s => Finset.Subset.refl _)
          (fun s i rest r _ hp => hp)
          (fun s i rest s1 e _ hc => ih s i _ hc)
          (fun s i rest s1 r _ hc hp => Finset.Subset.trans (ih s i _ hc) hp)
          pkg.Imports _ r h
        exact Finset.Subset.trans (Finset.subset_insert _ _) hloop

theorem rangeImports_mono (env : Env) (fuel : Nat) (imps : List String) (s : Finset String)
    (r : Walked) (h : rangeImports (findDeps env fuel) s imps = some r) : s ⊆ r.1 :=
  rangeImports_rule (findDeps env fuel) (fun s _ r => s ⊆ r.1)
    (fun _ => Finset.Subset.refl _)
    (fun _ _ _ _ _ hp => hp)
    (fun s i _ _ _ _ hc => findDeps_mono env fuel s i _ hc)
    (fun s i _ _ _ _ hc hp => Finset.Subset.trans (findDeps_mono env fuel s i _ hc) hp)
    imps s r h

/-- Where the keys and the error of a call come from: every key after the call was there
before or is markable from `root`, and a returned error is the error some reached name
resolves to. -/
theorem findDeps_sound (env : Env) (root : String) :
    ∀ fuel soFar name r, Reached env root name → findDeps env fuel soFar name = some r →
      (∀ p ∈ r.1, p ∈ soFar ∨ Markable env root p) ∧
      (∀ e, r.2 = some e → ∃ n, Reached env root n ∧ env.resolve n = .error e) := by
  intro fuel
  induction fuel with
  | zero => intro soFar name r _ h; simp [findDeps] at h
  | succ fuel ih =>
    intro soFar name r hreach h
    rw [findDeps_succ] at h
    cases hres : env.resolve name with
    | error e =>
      simp only [hres, Option.some.injEq] at h
      subst h
      exact ⟨fun p hp => Or.inl hp, fun e' he' => ⟨name, hreach, by simp at he'; rw [← he']; exact hres⟩⟩
    | ok pkg =>
      simp only [hres] at h
      by_cases hg : pkg.Goroot = true
      · simp only [hg, if_true, Option.some.injEq] at h
        subst h
        exact ⟨fun p hp => Or.inl hp, fun e' he' => by simp at he'⟩
      · simp only [hg, if_false] at h
        have hg' : pkg.Goroot = false := by simpa using hg
        have hloop := rangeImports_rule (findDeps env fuel)
          (fun s imps r => (∀ i ∈ imps, Reached env root i) →
            (∀ p ∈ r.1, p ∈ s ∨ Markable env root p) ∧
            (∀ e, r.2 = some e → ∃ n, Reached env root n ∧ env.resolve n = .error e))
          (fun s _ => ⟨fun p hp => Or.inl hp, fun e' he' => by simp at he'⟩)
          (fun s i rest r _ hp hall => hp (fun j hj => hall j (List.mem_cons_of_mem _ hj)))
          (fun s i rest s1 e _ hc hall => ih s i _ (hall i (List.mem_cons_self _ _)) hc)
          (fun s i rest s1 r _ hc hp hall => by
            have h1 := ih s i _ (hall i (List.mem_cons_self _ _)) hc
            have h2 := hp (fun j hj => hall j (List.mem_cons_of_mem _ hj))
            refine ⟨fun p hp' => ?_, h2.2⟩
            rcases h2.1 p hp' with hin | hm
            · exact h1.1 p hin
            · exact Or.inr hm)
          pkg.Imports _ r h (fun i hi => Reached.step hreach hres hg' hi)
        refine ⟨fun p hp => ?_, hloop.2⟩
        rcases hloop.1 p hp with hin | hm
        · rcases Finset.mem_insert.mp hin with rfl | hin
          · exact Or.inr ⟨name, pkg, hreach, hres, hg', rfl⟩
          · exact Or.inl hin
        · exact Or.inr hm

theorem covered_mono {env : Env} {S T : Finset String} {i : String} (hST : S ⊆ T)
    (h : Covered env S i) : Covered env T i := by
  rcases h with h | ⟨pkg, hres, h | h⟩
  · exact Or.inl (hST h)
  · exact Or.inr ⟨pkg, hres, Or.inl h⟩
  · exact Or.inr ⟨pkg, hres, Or.inr (hST h)⟩

theorem settled_mono {env : Env} {root : String} {S T : Finset String} {p : String}
    (hST : S ⊆ T) (h : Settled env root S p) : Settled env root T p := by
  obtain ⟨n, pkg, hr, hres, hg, hp, hall⟩ := h
  exact ⟨n, pkg, hr, hres, hg, hp, fun i hi => covered_mono hST (hall i hi)⟩

/-- What a successful call leaves behind: the name it was called on is covered, and every
key is one that was there before or is settled. -/
theorem findDeps_settles (env : Env) (root : String) :
    ∀ fuel soFar name S, Reached env root name →
      findDeps env fuel soFar name = some (S, none) →
      Covered env S name ∧ ∀ p ∈ S, p ∈ soFar ∨ Settled env root S p := by
  intro fuel
  induction fuel with
  | zero => intro soFar name S _ h; simp [findDeps] at h
  | succ fuel ih =>
    intro soFar name S hreach h
    rw [findDeps_succ] at h
    cases hres : env.resolve name with
    | error e => simp [hres] at h
    | ok pkg =>
      simp only [hres] at h
      by_cases hg : pkg.Goroot = true
      · simp only [hg, if_true, Option.some.injEq, Prod.mk.injEq, and_true] at h
        subst h
        exact ⟨Or.inr ⟨pkg, hres, Or.inl hg⟩, fun p hp => Or.inl hp⟩
      · simp only [hg, if_false] at h
        have hg' : pkg.Goroot = false := by simpa using hg
        have hloop := rangeImports_rule (findDeps env fuel)
          (fun s imps r => (∀ i ∈ imps, Reached env root i) → r.2 = none →
            (∀ i ∈ imps, Covered env r.1 i) ∧
            (∀ p ∈ r.1, p ∈ s ∨ Settled env root r.1 p) ∧ s ⊆ r.1)
          (fun s _ _ => ⟨fun i hi => by simp at hi, fun p hp => Or.inl hp, Finset.Subset.refl _⟩)
          (fun s i rest r hi hp hall hr => by
            obtain ⟨h1, h2, h3⟩ := hp (fun j hj => hall j (List.mem_cons_of_mem _ hj)) hr
            refine ⟨fun j hj => ?_, h2, h3⟩
            rcases List.mem_cons.mp hj with rfl | hj
            · exact Or.inl (h3 hi)
            · exact h1 j hj)
          (fun s i rest s1 e _ _ _ hr => by simp at hr)
          (fun s i rest s1 r _ hc hp hall hr => by
            obtain ⟨h1, h2, h3⟩ := hp (fun j hj => hall j (List.mem_cons_of_mem _ hj)) hr
            obtain ⟨c1, c2⟩ := ih s i s1 (hall i (List.mem_cons_self _ _)) hc
            have hs : s ⊆ s1 := findDeps_mono env fuel s i _ hc
            refine ⟨fun j hj => ?_, fun p hp' => ?_, Finset.Subset.trans hs h3⟩
            · rcases List.mem_cons.mp hj with rfl | hj
              · exact covered_mono h3 c1
              · exact h1 j hj
            · rcases h2 p hp' with hin | hset
              · rcases c2 p hin with hin' | hset
                · exact Or.inl hin'
                · exact Or.inr (settled_mono h3 hset)
              · exact Or.inr hset)
          pkg.Imports _ (S, none) h (fun i hi => Reached.step hreach hres hg' hi) rfl
        obtain ⟨h1, h2, h3⟩ := hloop
        refine ⟨Or.inr ⟨pkg, hres, Or.inr (h3 (Finset.mem_insert_self _ _))⟩, fun p hp => ?_⟩
        rcases h2 p hp with hin | hset
        · rcases Finset.mem_insert.mp hin with rfl | hin
          · exact Or.inr ⟨name, pkg, hreach, hres, hg', rfl, h1⟩
          · exact Or.inl hin
        · exact Or.inr hset

/-- The import loop returns when every recursive call it can make returns. -/
theorem rangeImports_returns (call : Finset String → String → Option Walked)
    (U s0 : Finset String)
    (hcall : ∀ s i, s0 ⊆ s → i ∈ U → i ∉ s → ∃ r, call s i = some r)
    (hmono : ∀ s i r, call s i = some r → s ⊆ r.1) :
    ∀ imps, (∀ i ∈ imps, i ∈ U) → ∀ s, s0 ⊆ s → ∃ r, rangeImports call s imps = some r := by
  intro imps
  induction imps with
  | nil => intro _ s _; exact ⟨(s, none), rfl⟩
  | cons i rest ih =>
    intro hall s hs
    have hrest : ∀ j ∈ rest, j ∈ U := fun j hj => hall j (List.mem_cons_of_mem _ hj)
    rw [rangeImports_cons]
    by_cases hi : i ∈ s
    · simp only [hi, if_true]; exact ih hrest s hs
    · simp only [hi, if_false]
      obtain ⟨r, hr⟩ := hcall s i hs (hall i (List.mem_cons_self _ _)) hi
      obtain ⟨s1, e⟩ := r
      cases e with
      | some e => exact ⟨(s1, some e), by simp [hr]⟩
      | none =>
        simp only [hr]
        exact ih hrest s1 (Finset.Subset.trans hs (hmono s i _ hr))

/-- A recursive call on an unmarked name returns when the fuel is at least the number of
unmarked names: marking the name before the loop leaves one unmarked name fewer to every
call below. -/
theorem findDeps_returns_unmarked (env : Env) (U : Finset String)
    (hU : ∀ n ∈ U, ∀ pkg, env.resolve n = .ok pkg →
      pkg.ImportPath = n ∧ ∀ i ∈ pkg.Imports, i ∈ U) :
    ∀ fuel soFar name, name ∈ U → name ∉ soFar → (U \ soFar).card ≤ fuel →
      ∃ r, findDeps env fuel soFar name = some r := by
  intro fuel
  induction fuel with
  | zero =>
    intro soFar name hn hns hc
    have : name ∈ U \ soFar := Finset.mem_sdiff.mpr ⟨hn, hns⟩
    have := Finset.card_pos.mpr ⟨name, this⟩
    omega
  | succ fuel ih =>
    intro soFar name hn hns hc
    rw [findDeps_succ]
    cases hres : env.resolve name with
    | error e => exact ⟨_, rfl⟩
    | ok pkg =>
      by_cases hg : pkg.Goroot = true
      · simp only [hg, if_true]; exact ⟨_, rfl⟩
      · simp only [hg, if_false]
        obtain ⟨hpath, himps⟩ := hU name hn pkg hres
        rw [hpath]
        have hlt : (U \ insert name soFar).card < (U \ soFar).card := by
          apply Finset.card_lt_card
          refine ⟨Finset.sdiff_subset_sdiff (Finset.Subset.refl _) (Finset.subset_insert _ _), ?_⟩
          intro hsub
          have := hsub (Finset.mem_sdiff.mpr ⟨hn, hns⟩)
          simp at this
        exact rangeImports_returns (findDeps env fuel) U (insert name soFar)
          (fun s i hs hi his => ih s i hi his (by
            have := Finset.card_le_card (Finset.sdiff_subset_sdiff (Finset.Subset.refl U) hs)
            omega))
          (findDeps_mono env fuel) pkg.Imports himps _ (Finset.Subset.refl _)

/-- On a finite import graph the walk from `root` returns, on any map, once the fuel
exceeds the number of names. -/
theorem findDeps_returns (env : Env) (root : String) (U : Finset String)
    (hU : FiniteBelow env root U) (fuel : Nat) (hfuel : U.card < fuel)
    (soFar : Finset String) : ∃ r, findDeps env fuel soFar root = some r := by
  obtain ⟨fuel, rfl⟩ : ∃ k, fuel = k + 1 := ⟨fuel - 1, by omega⟩
  rw [findDeps_succ]
  cases hres : env.resolve root with
  | error e => exact ⟨_, rfl⟩
  | ok pkg =>
    by_cases hg : pkg.Goroot = true
    · simp only [hg, if_true]; exact ⟨_, rfl⟩
    · simp only [hg, if_false]
      exact rangeImports_returns (findDeps env fuel) U (insert pkg.ImportPath soFar)
        (fun s i _ hi his => findDeps_returns_unmarked env U hU.2 fuel s i hi his (by
          have := Finset.card_le_card (Finset.sdiff_subset : U \ s ⊆ U)
          omega))
        (findDeps_mono env fuel) pkg.Imports (hU.1 pkg hres) _ (Finset.Subset.refl _)

/-! ## The visited set of a walk that succeeds -/

theorem reached_mem (env : Env) (root : String) (U : Finset String)
    (hU : FiniteBelow env root U) {n : String} (h : Reached env root n) :
    n = root ∨ n ∈ U := by
  induction h with
  | root => exact Or.inl rfl
  | step _ hres _ hi ih =>
    rcases ih with rfl | hn
    · exact Or.inr (hU.1 _ hres _ hi)
    · exact Or.inr ((hU.2 _ hn _ hres).2 _ hi)

theorem resolve_importPath (env : Env) (root : String) (U : Finset String)
    (hU : FiniteBelow env root U) (hroot : RootCanonical env root) {n : String}
    {pkg : Package} (hn : Reached env root n) (hres : env.resolve n = .ok pkg) :
    env.resolve pkg.ImportPath = .ok pkg := by
  rcases reached_mem env root U hU hn with rfl | hmem
  · exact hroot pkg hres
  · rw [(hU.2 n hmem pkg hres).1]; exact hres

/-- On a finite import graph, after a walk from the empty map that succeeds, every reached
name resolves, to a package of the base distribution or to one whose path is marked. -/
theorem walk_complete (env : Env) (root : String) (U : Finset String)
    (hU : FiniteBelow env root U) (hroot : RootCanonical env root) (fuel : Nat)
    (S : Finset String) (h : findDeps env fuel ∅ root = some (S, none)) :
    ∀ n, Reached env root n →
      ∃ pkg, env.resolve n = .ok pkg ∧ (pkg.Goroot = true ∨ pkg.ImportPath ∈ S) := by
  obtain ⟨hcov, hset⟩ := findDeps_settles env root fuel ∅ root S Reached.root h
  have hsettled : ∀ p ∈ S, Settled env root S p := fun p hp =>
    (hset p hp).resolve_left (Finset.not_mem_empty p)
  have hcovered : ∀ i, Covered env S i →
      ∃ pkg, env.resolve i = .ok pkg ∧ (pkg.Goroot = true ∨ pkg.ImportPath ∈ S) := by
    intro i hi
    rcases hi with hi | hi
    · obtain ⟨n1, pk1, hr1, hres1, _, hp1, _⟩ := hsettled i hi
      have := resolve_importPath env root U hU hroot hr1 hres1
      rw [hp1] at this
      exact ⟨pk1, this, Or.inr (by rw [hp1]; exact hi)⟩
    · exact hi
  intro n hn
  induction hn with
  | root => exact hcovered root hcov
  | @step n i pkg hr hres hg hi ih =>
    obtain ⟨pkg', hres', hor⟩ := ih
    have hpk : pkg' = pkg := by rw [hres] at hres'; injection hres' with e; exact e.symm
    subst hpk
    have hin : pkg'.ImportPath ∈ S := by
      rcases hor with hor | hor
      · rw [hg] at hor; exact absurd hor (by simp)
      · exact hor
    obtain ⟨n0, pk0, hr0, hres0, _, hp0, hall0⟩ := hsettled _ hin
    have e1 := resolve_importPath env root U hU hroot hr0 hres0
    have e2 := resolve_importPath env root U hU hroot hr hres
    rw [hp0, e2] at e1
    have hpk0 : pkg' = pk0 := by injection e1
    subst hpk0
    exact hcovered i (hall0 i hi)

/-- On a finite import graph, a walk from the empty map that succeeds marks exactly the
markable paths. -/
theorem walk_marks (env : Env) (root : String) (U : Finset String)
    (hU : FiniteBelow env root U) (hroot : RootCanonical env root) (fuel : Nat)
    (S : Finset String) (h : findDeps env fuel ∅ root = some (S, none)) (p : String) :
    p ∈ S ↔ Markable env root p := by
  constructor
  · intro hp
    exact ((findDeps_sound env root fuel ∅ root _ Reached.root h).1 p hp).resolve_left
      (Finset.not_mem_empty p)
  · rintro ⟨n, pkg, hr, hres, hg, rfl⟩
    obtain ⟨pkg', hres', hor⟩ := walk_complete env root U hU hroot fuel S h n hr
    have hpk : pkg' = pkg := by rw [hres] at hres'; injection hres' with e; exact e.symm
    subst hpk
    rcases hor with hor | hor
    · rw [hg] at hor; exact absurd hor (by simp)
    · exact hor

/-! ## Walks over an import graph -/

theorem ImportGraph.resolve_env (g : ImportGraph) (cwd n : String) :
    (g.env cwd).resolve n = .ok ⟨n, g.immediate n, g.goroot n⟩ := rfl

theorem ImportGraph.finiteBelow (g : ImportGraph) (cwd root : String) (U : Finset String)
    (hroot : root ∈ U) (hU : ∀ n ∈ U, ∀ i ∈ g.immediate n, i ∈ U) :
    FiniteBelow (g.env cwd) root U := by
  refine ⟨fun pkg h i hi => ?_, fun n hn pkg h => ?_⟩
  · rw [g.resolve_env] at h
    injection h with e; subst e
    exact hU root hroot i hi
  · rw [g.resolve_env] at h
    injection h with e; subst e
    exact ⟨rfl, fun i hi => hU n hn i hi⟩

theorem ImportGraph.rootCanonical (g : ImportGraph) (cwd root : String) :
    RootCanonical (g.env cwd) root := by
  intro pkg h
  rw [g.resolve_env] at h
  injection h with e; subst e
  exact g.resolve_env cwd root

theorem ImportGraph.markable_iff (g : ImportGraph) (cwd root p : String) :
    Markable (g.env cwd) root p ↔ Reached (g.env cwd) root p ∧ g.goroot p = false := by
  constructor
  · rintro ⟨n, pkg, hr, hres, hg, rfl⟩
    rw [g.resolve_env] at hres
    injection hres with e; subst e
    exact ⟨hr, hg⟩
  · rintro ⟨hr, hg⟩
    exact ⟨p, _, hr, g.resolve_env cwd p, hg, rfl⟩

/-- On a finite import graph the walk from the empty map returns without error. -/
theorem ImportGraph.walk_succeeds (g : ImportGraph) (cwd root : String) (U : Finset String)
    (hroot : root ∈ U) (hU : ∀ n ∈ U, ∀ i ∈ g.immediate n, i ∈ U) (fuel : Nat)
    (hfuel : U.card < fuel) : ∃ S, findDeps (g.env cwd) fuel ∅ root = some (S, none) := by
  obtain ⟨r, hr⟩ := findDeps_returns (g.env cwd) root U
    (g.finiteBelow cwd root U hroot hU) fuel hfuel ∅
  obtain ⟨S, e⟩ := r
  cases e with
  | none => exact ⟨S, hr⟩
  | some e =>
    obtain ⟨n, _, hn⟩ := (findDeps_sound (g.env cwd) root fuel ∅ root _ Reached.root hr).2 e rfl
    rw [g.resolve_env] at hn
    exact absurd hn (by simp)

theorem selfAndDep_acyclic (n : String) :
    ¬ Relation.TransGen (fun a b => b ∈ selfAndDep.immediate a) n n := by
  have hedge : ∀ a b, b ∈ selfAndDep.immediate a → a = "host/org/self" ∧ b = "host/org/dep" := by
    intro a b h
    unfold selfAndDep at h
    by_cases ha : a = "host/org/self"
    · simp [ha] at h; exact ⟨ha, h⟩
    · simp [ha] at h
  intro h
  obtain ⟨b, hab, hbn⟩ := Relation.TransGen.head'_iff.mp h
  obtain ⟨rfl, rfl⟩ := hedge _ _ hab
  rcases Relation.ReflTransGen.cases_head hbn with e | ⟨c, hc, _⟩
  · exact absurd e (by decide)
  · exact absurd (hedge _ _ hc).1 (by decide)

/-! ## Lemmas on table environments and on `GuessDeps` -/

theorem tableEnv_resolve (table : List (String × Package)) (n : String) :
    (tableEnv table).resolve n =
      match table.lookup n with
      | some pkg => .ok pkg
      | none => .error ("cannot find package " ++ n) := rfl

theorem tableEnv_resolve_ok (table : List (String × Package)) (n : String) (pkg : Package)
    (h : (tableEnv table).resolve n = .ok pkg) : table.lookup n = some pkg := by
  rw [tableEnv_resolve] at h
  cases hl : table.lookup n with
  | none => simp [hl] at h
  | some q => simp only [hl] at h; injection h with e; rw [e]

theorem tableEnv_finiteBelow (table : List (String × Package)) (root : String)
    (U : Finset String)
    (h1 : (table.lookup root).all (fun pkg => pkg.Imports.all fun i => decide (i ∈ U)) = true)
    (h2 : ∀ n ∈ U, (table.lookup n).all (fun pkg =>
      decide (pkg.ImportPath = n) && pkg.Imports.all fun i => decide (i ∈ U)) = true) :
    FiniteBelow (tableEnv table) root U := by
  refine ⟨fun pkg h i hi => ?_, fun n hn pkg h => ?_⟩
  · rw [tableEnv_resolve_ok table root pkg h] at h1
    simp only [Option.all_some, List.all_eq_true, decide_eq_true_eq] at h1
    exact h1 i hi
  · have := h2 n hn
    rw [tableEnv_resolve_ok table n pkg h] at this
    simp only [Option.all_some, Bool.and_eq_true, List.all_eq_true, decide_eq_true_eq] at this
    exact this

theorem tableEnv_rootCanonical (table : List (String × Package)) (root : String)
    (h : (table.lookup root).all (fun pkg =>
      decide (table.lookup pkg.ImportPath = some pkg)) = true) :
    RootCanonical (tableEnv table) root := by
  intro pkg hres
  rw [tableEnv_resolve_ok table root pkg hres] at h
  simp only [Option.all_some, decide_eq_true_eq] at h
  rw [tableEnv_resolve, h]

theorem GuessDeps_of_error (env : Env) (order : RangeOrder) (fuel : Nat)
    (dirname : Option String) (S : Finset String) (e : Error)
    (h : findDeps env fuel ∅ (dirname.getD ".") = some (S, some e)) :
    GuessDeps env order fuel dirname = some (none, some e) := by
  simp [GuessDeps, h]

theorem GuessDeps_of_success (env : Env) (order : RangeOrder) (fuel : Nat)
    (dirname : Option String) (S : Finset String)
    (h : findDeps env fuel ∅ (dirname.getD ".") = some (S, none)) :
    GuessDeps env order fuel dirname =
      some (some ⟨(order.keys ((compactDeps S).erase (dirname.getD "."))).map Dependency.mk⟩,
        none) := by
  simp [GuessDeps, h]

/-- A successful `GuessDeps` comes from a successful walk, and lists the keys of the
compacted map without `base` in range order. -/
theorem GuessDeps_success_walk (env : Env) (order : RangeOrder) (fuel : Nat)
    (dirname : Option String) (cfg : Config)
    (h : GuessDeps env order fuel dirname = some (some cfg, none)) :
    ∃ S, findDeps env fuel ∅ (dirname.getD ".") = some (S, none) ∧
      cfg.names = order.keys ((compactDeps S).erase (dirname.getD ".")) := by
  cases hw : findDeps env fuel ∅ (dirname.getD ".") with
  | none => simp [GuessDeps, hw] at h
  | some r =>
    obtain ⟨S, e⟩ := r
    cases e with
    | some e => rw [GuessDeps_of_error env order fuel dirname S e hw] at h; simp at h
    | none =>
      rw [GuessDeps_of_success env order fuel dirname S hw] at h
      simp only [Option.some.injEq, Prod.mk.injEq, and_true] at h
      refine ⟨S, rfl, ?_⟩
      rw [← h]
      simp [Config.names, Function.comp_def]

theorem RangeOrder.keys_singleton (order : RangeOrder) (a : String) :
    order.keys {a} = [a] := by
  have hn := order.nodup {a}
  have hm := order.mem_keys {a}
  cases hl : order.keys {a} with
  | nil =>
    have := (hm a).mpr (Finset.mem_singleton_self a)
    rw [hl] at this; simp at this
  | cons x t =>
    rw [hl] at hn hm
    have hx : x = a := Finset.mem_singleton.mp ((hm x).mp (List.mem_cons_self _ _))
    cases t with
    | nil => rw [hx]
    | cons y t2 =>
      have hy : y = a :=
        Finset.mem_singleton.mp ((hm y).mp (List.mem_cons_of_mem _ (List.mem_cons_self _ _)))
      rw [hx, hy] at hn
      simp at hn

/-! ## Theorems on the walk -/

/-- C5, as stated, fails: on the graph in which `host/org/self` imports `host/org/dep` and
nothing else is imported, the walk from `host/org/self` on the empty map succeeds and
marks `host/org/self` as well as `host/org/dep`, whereas the closure of the claim leaves
the root's own path out. -/
theorem findDeps_marks_root :
    findDeps (selfAndDep.env "/work") 3 ∅ "host/org/self" =
      some ({"host/org/dep", "host/org/self"}, none) ∧
    "host/org/self" ∈ ({"host/org/dep", "host/org/self"} : Finset String) ∧
    ¬ SpecClosure selfAndDep "host/org/self" "host/org/self" := by
  refine ⟨by decide, by decide, ?_⟩
  rintro ⟨_, _, h⟩
  exact h rfl

/-- C5, amended. On every finite import graph (with or without cycles) and for every root,
`findDeps` started on the empty map succeeds, and the map it leaves holds exactly the paths
outside the base distribution that are the root or are reached from the root along imports
of packages outside the base distribution: the root's own path is marked when the
root is outside the base distribution. -/
theorem findDeps_visits_reached (g : ImportGraph) (cwd root : String) (U : Finset String)
    (hroot : root ∈ U) (hU : ∀ n ∈ U, ∀ i ∈ g.immediate n, i ∈ U) (fuel : Nat)
    (hfuel : U.card < fuel) :
    ∃ S, findDeps (g.env cwd) fuel ∅ root = some (S, none) ∧
      ∀ p, p ∈ S ↔ (Reached (g.env cwd) root p ∧ g.goroot p = false) := by
  obtain ⟨S, hS⟩ := g.walk_succeeds cwd root U hroot hU fuel hfuel
  refine ⟨S, hS, fun p => ?_⟩
  rw [walk_marks (g.env cwd) root U (g.finiteBelow cwd root U hroot hU)
    (g.rootCanonical cwd root) fuel S hS p]
  exact g.markable_iff cwd root p

theorem findDeps_visits_reached_witness :
    ∃ S, findDeps (selfAndDep.env "/work") 3 ∅ "host/org/self" = some (S, none) ∧
      ∀ p, p ∈ S ↔ (Reached (selfAndDep.env "/work") "host/org/self" p ∧
        selfAndDep.goroot p = false) :=
  findDeps_visits_reached selfAndDep "/work" "host/org/self"
    {"host/org/self", "host/org/dep"} (by decide) (by decide) 3 (by decide)

/-- Termination where names are paths: on a finite import graph on which the resolver
returns the requested name as the path of the package, cycles and packages that import
themselves under their own path included, `findDeps` returns, from any map, as soon as the
recursion may go one deeper than there are names: a name is marked before its imports are
walked and marked imports are skipped, so every recursive call has one unmarked name fewer
below it. -/
theorem findDeps_terminates (env : Env) (root : String) (U : Finset String)
    (hU : FiniteBelow env root U) (fuel : Nat) (hfuel : U.card < fuel)
    (soFar : Finset String) : ∃ r, findDeps env fuel soFar root = some r :=
  findDeps_returns env root U hU fuel hfuel soFar

theorem findDeps_terminates_witness :
    ∃ r, findDeps (cyclic.env "/work") 3 ∅ "host/a" = some r :=
  findDeps_terminates (cyclic.env "/work") "host/a" {"host/a", "host/b"}
    (cyclic.finiteBelow "/work" "host/a" {"host/a", "host/b"} (by decide) (by decide))
    3 (by decide) ∅

/-- A call on `.` with `.` unmarked never returns in the environment `selfDot`: the key
that is marked is `host/org/self`, the key that the loop tests is `.`. -/
theorem selfDot_call_none (fuel : Nat) :
    ∀ soFar : Finset String, "." ∉ soFar → findDeps selfDot fuel soFar "." = none := by
  induction fuel with
  | zero => intro soFar _; rfl
  | succ fuel ih =>
    intro soFar hs
    have hres : selfDot.resolve "." = .ok ⟨"host/org/self", ["."], false⟩ := rfl
    have hnot : "." ∉ insert "host/org/self" soFar := by
      rw [Finset.mem_insert]
      rintro (h | h)
      · exact absurd h (by decide)
      · exact hs h
    rw [findDeps_succ, hres]
    simp only [Bool.false_eq_true, if_false, rangeImports_cons, hnot, ih _ hnot]

/-- C6 at an input on which the code breaks it: the project directory `.` resolves to the
package `host/org/self`, the only package there is, and that package imports itself as `.`;
the walk marks `host/org/self`, finds `.` unmarked and calls itself on `.` again, at every
depth, so `findDeps` returns at no bound on the recursion. -/
theorem findDeps_self_import_never_returns :
    selfDot.resolve "." = .ok ⟨"host/org/self", ["."], false⟩ ∧
    selfDot.resolve "host/org/self" = .ok ⟨"host/org/self", ["."], false⟩ ∧
    ¬ ∃ fuel r, findDeps selfDot fuel ∅ "." = some r := by
  refine ⟨rfl, rfl, ?_⟩
  rintro ⟨fuel, r, h⟩
  rw [selfDot_call_none fuel ∅ (Finset.not_mem_empty _)] at h
  exact absurd h (by simp)

theorem missingDep_reaches_missing : Reached missingDep "." "host/org/missing" :=
  @Reached.step missingDep "." "host/org/dep" "host/org/missing"
    ⟨"host/org/dep", ["host/org/missing"], false⟩
    (@Reached.step missingDep "." "." "host/org/dep" ⟨".", ["host/org/dep"], false⟩
      Reached.root rfl rfl (by decide))
    rfl rfl (by decide)

/-! ## Theorems on `GuessDeps` -/

/-- C7. When the walk returns an error, `GuessDeps` returns that very error and no list,
and the error is the one that resolving some reached name gave; and on a finite import
graph, when the root or any import the walk can reach fails to resolve, `GuessDeps`
returns no list and an error, which is the error of a failed resolution. -/
theorem GuessDeps_fails_fast (env : Env) (order : RangeOrder) (fuel : Nat)
    (dirname : Option String) :
    (∀ S e, findDeps env fuel ∅ (dirname.getD ".") = some (S, some e) →
      GuessDeps env order fuel dirname = some (none, some e) ∧
      ∃ n, Reached env (dirname.getD ".") n ∧ env.resolve n = .error e) ∧
    (∀ U : Finset String, FiniteBelow env (dirname.getD ".") U →
      RootCanonical env (dirname.getD ".") → U.card < fuel →
      ∀ n e, Reached env (dirname.getD ".") n → env.resolve n = .error e →
      ∃ e1 n1, GuessDeps env order fuel dirname = some (none, some e1) ∧
        Reached env (dirname.getD ".") n1 ∧ env.resolve n1 = .error e1) := by
  constructor
  · intro S e h
    exact ⟨GuessDeps_of_error env order fuel dirname S e h,
      (findDeps_sound env _ fuel ∅ _ _ Reached.root h).2 e rfl⟩
  · intro U hU hroot hfuel n e hn hfail
    obtain ⟨r, hr⟩ := findDeps_returns env _ U hU fuel hfuel ∅
    obtain ⟨S, err⟩ := r
    cases err with
    | some e1 =>
      obtain ⟨n1, hn1, hres1⟩ := (findDeps_sound env _ fuel ∅ _ _ Reached.root hr).2 e1 rfl
      exact ⟨e1, n1, GuessDeps_of_error env order fuel dirname S e1 hr, hn1, hres1⟩
    | none =>
      obtain ⟨pkg, hres, _⟩ := walk_complete env _ U hU hroot fuel S hr n hn
      rw [hfail] at hres
      exact absurd hres (by simp)

theorem GuessDeps_fails_fast_witness :
    (GuessDeps missingDep (pinned [] List.nodup_nil) 3 none =
        some (none, some "cannot find package host/org/missing") ∧
      ∃ n, Reached missingDep "." n ∧
        missingDep.resolve n = .error "cannot find package host/org/missing") ∧
    ∃ e1 n1, GuessDeps missingDep (pinned [] List.nodup_nil) 3 none = some (none, some e1) ∧
      Reached missingDep "." n1 ∧ missingDep.resolve n1 = .error e1 :=
  ⟨(GuessDeps_fails_fast missingDep (pinned [] List.nodup_nil) 3 none).1
      {"host/org/dep", "."} "cannot find package host/org/missing" (by decide),
    (GuessDeps_fails_fast missingDep (pinned [] List.nodup_nil) 3 none).2
      {"host/org/dep", "host/org/missing"}
      (tableEnv_finiteBelow _ _ _ (by decide) (by decide))
      (tableEnv_rootCanonical _ _ (by decide)) (by decide)
      "host/org/missing" "cannot find package host/org/missing"
      missingDep_reaches_missing rfl⟩

/-- C8 at an input on which the code breaks it: the project directory `.` resolves to the import
path `host/org/self`, whose canonical root is `host/org/self`; whatever the range
order, the discovery succeeds and the list holds a record named `host/org/self`. -/
theorem GuessDeps_lists_root_project (order : RangeOrder) :
    inGopath.resolve "." =
      .ok ⟨"host/org/self", ["host/org/self/util", "host/org/dep"], false⟩ ∧
    basePackage "host/org/self" = "host/org/self" ∧
    ∃ cfg, GuessDeps inGopath order 3 none = some (some cfg, none) ∧
      "host/org/self" ∈ cfg.names := by
  have h : findDeps inGopath 3 ∅ ((none : Option String).getD ".") =
      some ({"host/org/dep", "host/org/self/util", "host/org/self"}, none) := by decide
  refine ⟨rfl, by decide, _, GuessDeps_of_success inGopath order 3 none _ h, ?_⟩
  simp only [Config.names, List.map_map, List.mem_map, Function.comp_def]
  exact ⟨"host/org/self", (order.mem_keys _ _).mpr (by decide), rfl⟩

/-- C9, as stated, fails: on a project that imports `host/org/a` and `host/org/b`, a run
whose range loop yields `host/org/b` first returns the records in that order, which is
not ascending, and a run whose range loop yields `host/org/a` first returns the other
sequence. -/
theorem GuessDeps_order_not_ascending :
    GuessDeps twoDeps (pinned ["host/org/b", "host/org/a"] (by decide)) 3 none =
      some (some ⟨[⟨"host/org/b"⟩, ⟨"host/org/a"⟩]⟩, none) ∧
    ¬ List.Sorted (fun a b : String => a ≤ b) ["host/org/b", "host/org/a"] ∧
    GuessDeps twoDeps (pinned ["host/org/a", "host/org/b"] (by decide)) 3 none =
      some (some ⟨[⟨"host/org/a"⟩, ⟨"host/org/b"⟩]⟩, none) := by
  refine ⟨by decide, ?_, by decide⟩
  intro hs
  have hle : ("host/org/b" : String) ≤ "host/org/a" :=
    List.rel_of_sorted_cons hs _ (List.mem_singleton_self _)
  have hlt : ("host/org/a" : String) < "host/org/b" := by
    rw [String.lt_iff_toList_lt]; decide
  exact absurd hlt (not_lt.mpr hle)

/-- C9, amended. For every successful discovery the walk has succeeded with some map `S`,
and the names of the returned records are the keys of the compacted map without `base`,
each once, in the order in which the range loop yields them, one record per name; that
order is not fixed, so two runs on the same import graph return sequences that are
permutations of one another. -/
theorem GuessDeps_order_is_range_order (env : Env) (order1 order2 : RangeOrder) (fuel : Nat)
    (dirname : Option String) (cfg1 cfg2 : Config)
    (h1 : GuessDeps env order1 fuel dirname = some (some cfg1, none))
    (h2 : GuessDeps env order2 fuel dirname = some (some cfg2, none)) :
    ∃ S, findDeps env fuel ∅ (dirname.getD ".") = some (S, none) ∧
      cfg1.Imports = (order1.keys ((compactDeps S).erase (dirname.getD "."))).map Dependency.mk ∧
      cfg2.Imports = (order2.keys ((compactDeps S).erase (dirname.getD "."))).map Dependency.mk ∧
      cfg1.names = order1.keys ((compactDeps S).erase (dirname.getD ".")) ∧
      cfg2.names = order2.keys ((compactDeps S).erase (dirname.getD ".")) ∧
      (∀ k, k ∈ cfg1.names ↔ k ∈ compactDeps S ∧ k ≠ dirname.getD ".") ∧
      cfg1.names.Nodup ∧ cfg1.names.Perm cfg2.names := by
  obtain ⟨S1, hw1, hn1⟩ := GuessDeps_success_walk env order1 fuel dirname cfg1 h1
  obtain ⟨S2, hw2, hn2⟩ := GuessDeps_success_walk env order2 fuel dirname cfg2 h2
  have hS : S2 = S1 := by
    rw [hw1] at hw2
    simp only [Option.some.injEq, Prod.mk.injEq, and_true] at hw2
    exact hw2.symm
  subst hS
  have hi1 : cfg1.Imports = cfg1.names.map Dependency.mk := by
    simp [Config.names, Function.comp_def]
  have hi2 : cfg2.Imports = cfg2.names.map Dependency.mk := by
    simp [Config.names, Function.comp_def]
  refine ⟨S2, hw1, by rw [hi1, hn1], by rw [hi2, hn2], hn1, hn2, fun k => ?_, ?_, ?_⟩
  · rw [hn1, order1.mem_keys, Finset.mem_erase]
    exact And.comm
  · rw [hn1]; exact order1.nodup _
  · rw [hn1, hn2]
    refine (List.perm_ext_iff_of_nodup (order1.nodup _) (order2.nodup _)).mpr fun k => ?_
    rw [order1.mem_keys, order2.mem_keys]

theorem GuessDeps_order_is_range_order_witness :
    ∃ S, findDeps twoDeps 3 ∅ ((none : Option String).getD ".") = some (S, none) ∧
      (Config.mk [⟨"host/org/b"⟩, ⟨"host/org/a"⟩]).Imports =
        ((pinned ["host/org/b", "host/org/a"] (by decide)).keys
          ((compactDeps S).erase ((none : Option String).getD "."))).map Dependency.mk ∧
      (Config.mk [⟨"host/org/a"⟩, ⟨"host/org/b"⟩]).Imports =
        ((pinned ["host/org/a", "host/org/b"] (by decide)).keys
          ((compactDeps S).erase ((none : Option String).getD "."))).map Dependency.mk ∧
      (Config.mk [⟨"host/org/b"⟩, ⟨"host/org/a"⟩]).names =
        (pinned ["host/org/b", "host/org/a"] (by decide)).keys
          ((compactDeps S).erase ((none : Option String).getD ".")) ∧
      (Config.mk [⟨"host/org/a"⟩, ⟨"host/org/b"⟩]).names =
        (pinned ["host/org/a", "host/org/b"] (by decide)).keys
          ((compactDeps S).erase ((none : Option String).getD ".")) ∧
      (∀ k, k ∈ (Config.mk [⟨"host/org/b"⟩, ⟨"host/org/a"⟩]).names ↔
        k ∈ compactDeps S ∧ k ≠ (none : Option String).getD ".") ∧
      (Config.mk [⟨"host/org/b"⟩, ⟨"host/org/a"⟩]).names.Nodup ∧
      (Config.mk [⟨"host/org/b"⟩, ⟨"host/org/a"⟩]).names.Perm
        (Config.mk [⟨"host/org/a"⟩, ⟨"host/org/b"⟩]).names :=
  GuessDeps_order_is_range_order twoDeps
    (pinned ["host/org/b", "host/org/a"] (by decide))
    (pinned ["host/org/a", "host/org/b"] (by decide)) 3 none
    ⟨[⟨"host/org/b"⟩, ⟨"host/org/a"⟩]⟩ ⟨[⟨"host/org/a"⟩, ⟨"host/org/b"⟩]⟩
    (by decide) (by decide)

/-- C10 at an input on which the code breaks it: the project directory `.` resolves to the import
path `host/org/self` and imports only the base-distribution packages `fmt` and
`os`; whatever the range order, the discovery succeeds and returns a list of one record,
named `host/org/self`. -/
theorem GuessDeps_self_contained_lists_itself (order : RangeOrder) :
    GuessDeps selfContained order 2 none = some (some ⟨[⟨"host/org/self"⟩]⟩, none) := by
  have h : findDeps selfContained 2 ∅ ((none : Option String).getD ".") =
      some ({"host/org/self"}, none) := by decide
  rw [GuessDeps_of_success selfContained order 2 none _ h]
  have hs : (compactDeps {"host/org/self"}).erase ((none : Option String).getD ".") =
      {"host/org/self"} := by decide
  rw [hs, order.keys_singleton]
  rfl

/-! ## Further lemmas on the compactor -/

theorem join_append (sep : Char) (l1 l2 : List (List Char)) (h1 : l1 ≠ []) (h2 : l2 ≠ []) :
    join sep (l1 ++ l2) = join sep l1 ++ sep :: join sep l2 := by
  induction l1 with
  | nil => exact absurd rfl h1
  | cons a rest ih =>
    cases rest with
    | nil =>
      rw [List.singleton_append, join_cons_of_ne_nil sep a l2 h2]
      rfl
    | cons b rest2 =>
      rw [List.cons_append, join_cons_of_ne_nil sep a _ (by simp),
        ih (by simp), join_cons_of_ne_nil sep a _ (by simp)]
      simp

/-- The number of segments is one more than the number of separators. -/
theorem segments_length_eq_count (sep : Char) (s : List Char) :
    (segments sep s).length = s.count sep + 1 := by
  induction s with
  | nil => rfl
  | cons c cs ih =>
    rw [segments_cons]
    by_cases h : c = sep
    · subst h
      simp [ih]
    · have hne : (c == sep) = false := by simpa using h
      simp only [h, if_false, List.count_cons, hne]
      cases hs : segments sep cs with
      | nil => exact absurd hs (segments_ne_nil sep cs)
      | cons a l => rw [hs] at ih; simpa using ih

/-- A path of four or more segments is its stored key, a `/` and the remaining
segments. -/
theorem basePackage_boundary_of_four_le (p : String) (h : 4 ≤ (pathSegments p).length) :
    p = basePackage p ++ "/" ++ Join ((pathSegments p).drop 3) := by
  rw [basePackage_of_three_le p (by omega)]
  apply String.ext
  simp only [String.data_append, Join, List.map_take, List.map_drop]
  have hdata : (pathSegments p).map String.data = segments slash p.data := by
    simp only [pathSegments, List.map_map]
    have : (String.data ∘ String.mk) = id := by funext l; rfl
    rw [this, List.map_id]
  have hlen : 4 ≤ (segments slash p.data).length := by
    simpa [pathSegments] using h
  rw [hdata, List.append_assoc]
  have hj := join_append slash ((segments slash p.data).take 3) ((segments slash p.data).drop 3)
    (by intro hn; have := congrArg List.length hn
        rw [List.length_take, List.length_nil] at this; omega)
    (by intro hn; have := congrArg List.length hn
        rw [List.length_drop, List.length_nil] at this; omega)
  rw [List.take_append_drop, join_segments] at hj
  exact hj

/-- The stored key of a path is the path, or a prefix of it that ends where a `/`
follows. -/
theorem basePackage_boundary (p : String) :
    basePackage p = p ∨ ∃ r, p = basePackage p ++ "/" ++ r := by
  by_cases h : (pathSegments p).length < 4
  · exact Or.inl (basePackage_of_lt_four p h)
  · exact Or.inr ⟨_, basePackage_boundary_of_four_le p (by omega)⟩

theorem pathSegments_basePackage_of_four_le (p : String) (h : 4 ≤ (pathSegments p).length) :
    (pathSegments (basePackage p)).length = 3 := by
  rw [basePackage_of_three_le p (by omega), pathSegments_Join_take_three p (by omega),
    List.length_take]
  omega

theorem pathSegments_length_eq_count (p : String) :
    (pathSegments p).length = p.data.count slash + 1 := by
  simp only [pathSegments, List.length_map]
  exact segments_length_eq_count slash p.data

theorem RangeOrder.keys_toFinset (order : RangeOrder) (s : Finset String) :
    (order.keys s).toFinset = s := by
  ext k
  rw [List.mem_toFinset, order.mem_keys]

theorem RangeOrder.keys_length (order : RangeOrder) (s : Finset String) :
    (order.keys s).length = s.card := by
  rw [← List.toFinset_card_of_nodup (order.nodup s), order.keys_toFinset]

/-! ## Further theorems on `GuessDeps` and on the compactor -/

/-- C15. On success `GuessDeps` emits one record for each element of the compacted visited
set other than the string `base`, the `dirname` argument as passed (`.` by default): the
length of the list is the size of that set, no name occurs twice, the set of the names is
that set, and a record carries nothing but its name. -/
theorem GuessDeps_lists_compacted_without_base (env : Env) (order : RangeOrder) (fuel : Nat)
    (dirname : Option String) (cfg : Config)
    (h : GuessDeps env order fuel dirname = some (some cfg, none)) :
    ∃ S, findDeps env fuel ∅ (dirname.getD ".") = some (S, none) ∧
      cfg.Imports.length = ((compactDeps S).erase (dirname.getD ".")).card ∧
      cfg.names.Nodup ∧
      cfg.names.toFinset = (compactDeps S).erase (dirname.getD ".") ∧
      cfg.Imports = cfg.names.map Dependency.mk := by
  obtain ⟨S, hw, hn⟩ := GuessDeps_success_walk env order fuel dirname cfg h
  refine ⟨S, hw, ?_, ?_, ?_, ?_⟩
  · have : cfg.Imports.length = cfg.names.length := by simp [Config.names]
    rw [this, hn, order.keys_length]
  · rw [hn]; exact order.nodup _
  · rw [hn, order.keys_toFinset]
  · simp [Config.names, Function.comp_def]

theorem GuessDeps_lists_compacted_without_base_witness :
    ∃ S, findDeps twoDeps 3 ∅ ((none : Option String).getD ".") = some (S, none) ∧
      (Config.mk [⟨"host/org/b"⟩, ⟨"host/org/a"⟩]).Imports.length =
        ((compactDeps S).erase ((none : Option String).getD ".")).card ∧
      (Config.mk [⟨"host/org/b"⟩, ⟨"host/org/a"⟩]).names.Nodup ∧
      (Config.mk [⟨"host/org/b"⟩, ⟨"host/org/a"⟩]).names.toFinset =
        (compactDeps S).erase ((none : Option String).getD ".") ∧
      (Config.mk [⟨"host/org/b"⟩, ⟨"host/org/a"⟩]).Imports =
        (Config.mk [⟨"host/org/b"⟩, ⟨"host/org/a"⟩]).names.map Dependency.mk :=
  GuessDeps_lists_compacted_without_base twoDeps
    (pinned ["host/org/b", "host/org/a"] (by decide)) 3 none
    ⟨[⟨"host/org/b"⟩, ⟨"host/org/a"⟩]⟩ (by decide)

/-- C16. `compactDeps` neither invents nor loses dependencies: every element of
`compactDeps S` is an element of `S` or a prefix of one that ends where a `/` follows,
every element of `S` is an element of `compactDeps S` or one followed by `/` and more;
so `compactDeps S` is empty exactly when `S` is, and has at most as many elements. -/
theorem compactDeps_neither_invents_nor_loses (S : Finset String) :
    (∀ x ∈ compactDeps S, ∃ p ∈ S, x = p ∨ ∃ r, p = x ++ "/" ++ r) ∧
    (∀ p ∈ S, ∃ x ∈ compactDeps S, p = x ∨ ∃ r, p = x ++ "/" ++ r) ∧
    (compactDeps S = ∅ ↔ S = ∅) ∧
    (compactDeps S).card ≤ S.card := by
  refine ⟨fun x hx => ?_, fun p hp => ?_, ?_, ?_⟩
  · obtain ⟨p, hp, rfl⟩ := mem_compactDeps.mp hx
    exact ⟨p, hp, basePackage_boundary p⟩
  · refine ⟨basePackage p, mem_compactDeps.mpr ⟨p, hp, rfl⟩, ?_⟩
    rcases basePackage_boundary p with h | h
    · exact Or.inl h.symm
    · exact Or.inr h
  · rw [compactDeps_eq_image, Finset.image_eq_empty]
  · rw [compactDeps_eq_image]; exact Finset.card_image_le

theorem compactDeps_neither_invents_nor_loses_witness :
    (∃ p ∈ ({"host/org/repo/sub1", "host/org2/tool"} : Finset String),
      "host/org/repo" = p ∨ ∃ r, p = "host/org/repo" ++ "/" ++ r) ∧
    (∃ x ∈ compactDeps {"host/org/repo/sub1", "host/org2/tool"},
      "host/org/repo/sub1" = x ∨ ∃ r, "host/org/repo/sub1" = x ++ "/" ++ r) :=
  ⟨(compactDeps_neither_invents_nor_loses {"host/org/repo/sub1", "host/org2/tool"}).1
      "host/org/repo" (by decide),
    (compactDeps_neither_invents_nor_loses {"host/org/repo/sub1", "host/org2/tool"}).2.1
      "host/org/repo/sub1" (by decide)⟩

/-- C17. Every element of `compactDeps S` has at most three segments, that is at most two
`/` characters, and the key stored for a path of four or more segments has exactly
three segments. -/
theorem compactDeps_at_most_three_segments (S : Finset String) :
    (∀ x ∈ compactDeps S, (pathSegments x).length ≤ 3 ∧ x.data.count slash ≤ 2) ∧
    (∀ p ∈ S, 4 ≤ (pathSegments p).length →
      basePackage p ∈ compactDeps S ∧ (pathSegments (basePackage p)).length = 3) := by
  refine ⟨fun x hx => ?_, fun p hp h4 => ?_⟩
  · obtain ⟨p, _, rfl⟩ := mem_compactDeps.mp hx
    have hle := pathSegments_basePackage_le p
    have hc := pathSegments_length_eq_count (basePackage p)
    exact ⟨hle, by omega⟩
  · exact ⟨mem_compactDeps.mpr ⟨p, hp, rfl⟩, pathSegments_basePackage_of_four_le p h4⟩

theorem compactDeps_at_most_three_segments_witness :
    ((pathSegments "host/org/repo").length ≤ 3 ∧
      ("host/org/repo" : String).data.count slash ≤ 2) ∧
    (basePackage "host/org/repo/sub1/deep" ∈
        compactDeps {"host/org/repo/sub1/deep", "host/org2/tool"} ∧
      (pathSegments (basePackage "host/org/repo/sub1/deep")).length = 3) :=
  ⟨(compactDeps_at_most_three_segments {"host/org/repo/sub1/deep", "host/org2/tool"}).1
      "host/org/repo" (by decide),
    (compactDeps_at_most_three_segments {"host/org/repo/sub1/deep", "host/org2/tool"}).2
      "host/org/repo/sub1/deep" (by decide) (by decide)⟩

/-! ## Lemmas on the base-distribution flag and on the order of imports -/

theorem ImportGraph.flagByPath (g : ImportGraph) (cwd : String) : FlagByPath (g.env cwd) := by
  intro n m p q hp hq hpq
  rw [g.resolve_env] at hp hq
  injection hp with ep; injection hq with eq
  subst ep; subst eq
  simp only at hpq
  rw [hpq]

/-- A key is in the map before the call, or is the path of a package that was resolved with
the flag false. -/
theorem findDeps_adds_non_base (env : Env) (fuel : Nat) (soFar : Finset String)
    (name : String) (r : Walked) (h : findDeps env fuel soFar name = some r) :
    ∀ p ∈ r.1, p ∈ soFar ∨
      ∃ n pkg, env.resolve n = .ok pkg ∧ pkg.Goroot = false ∧ pkg.ImportPath = p := by
  intro p hp
  rcases (findDeps_sound env name fuel soFar name r Reached.root h).1 p hp with hin | hm
  · exact Or.inl hin
  · obtain ⟨n, pkg, _, hres, hg, hpath⟩ := hm
    exact Or.inr ⟨n, pkg, hres, hg, hpath⟩

/-- A returned error is the error of resolving the root of the walk or an import of a
resolved package outside the base distribution. -/
theorem findDeps_error_origin (env : Env) (fuel : Nat) (soFar : Finset String)
    (root : String) (S : Finset String) (e : Error)
    (h : findDeps env fuel soFar root = some (S, some e)) :
    ∃ n, (n = root ∨ ∃ m pkg, env.resolve m = .ok pkg ∧ pkg.Goroot = false ∧
      n ∈ pkg.Imports) ∧ env.resolve n = .error e := by
  obtain ⟨n, hn, hres⟩ := (findDeps_sound env root fuel soFar root _ Reached.root h).2 e rfl
  refine ⟨n, ?_, hres⟩
  cases hn with
  | root => exact Or.inl rfl
  | @step m _ pkg _ hm hg hi => exact Or.inr ⟨m, pkg, hm, hg, hi⟩

theorem findDeps_of_goroot (env : Env) (name : String) (pkg : Package)
    (hres : env.resolve name = .ok pkg) (hg : pkg.Goroot = true) (fuel : Nat)
    (soFar : Finset String) : findDeps env (fuel + 1) soFar name = some (soFar, none) := by
  rw [findDeps_succ, hres]
  simp [hg]

theorem sameUpToOrder_symm {a b : Except Error Package} (h : SameUpToOrder a b) :
    SameUpToOrder b a := by
  cases a with
  | error e =>
    cases b with
    | error f => exact (show e = f from h).symm
    | ok q => exact h.elim
  | ok p =>
    cases b with
    | error f => exact h.elim
    | ok q =>
      obtain ⟨h1, h2, h3⟩ := (show _ ∧ _ ∧ _ from h)
      exact ⟨h1.symm, h2.symm, h3.symm⟩

theorem sameUpToOrder_ok {p : Package} {b : Except Error Package}
    (h : SameUpToOrder (.ok p) b) :
    ∃ q, b = .ok q ∧ p.ImportPath = q.ImportPath ∧ p.Goroot = q.Goroot ∧
      p.Imports.Perm q.Imports := by
  cases b with
  | error f => exact h.elim
  | ok q => exact ⟨q, rfl, h⟩

theorem sameUpToOrder_error {e : Error} {b : Except Error Package}
    (h : SameUpToOrder (.error e) b) : b = .error e := by
  cases b with
  | error f => rw [show e = f from h]
  | ok q => exact h.elim

theorem reached_of_same (env1 env2 : Env) (root : String)
    (hsame : ∀ n, SameUpToOrder (env1.resolve n) (env2.resolve n)) {n : String}
    (h : Reached env1 root n) : Reached env2 root n := by
  induction h with
  | root => exact Reached.root
  | @step m i pkg _ hres hg hi ih =>
    have hs := hsame m
    rw [hres] at hs
    obtain ⟨q, hq, _, hflag, hperm⟩ := sameUpToOrder_ok hs
    exact Reached.step ih hq (by rw [← hflag]; exact hg) (hperm.mem_iff.mp hi)

theorem markable_of_same (env1 env2 : Env) (root : String)
    (hsame : ∀ n, SameUpToOrder (env1.resolve n) (env2.resolve n)) {p : String}
    (h : Markable env1 root p) : Markable env2 root p := by
  obtain ⟨n, pkg, hr, hres, hg, hpath⟩ := h
  have hs := hsame n
  rw [hres] at hs
  obtain ⟨q, hq, hp, hflag, _⟩ := sameUpToOrder_ok hs
  exact ⟨n, q, reached_of_same env1 env2 root hsame hr, hq, by rw [← hflag]; exact hg,
    by rw [← hp]; exact hpath⟩

theorem finiteBelow_of_same (env1 env2 : Env) (root : String) (U : Finset String)
    (hsame : ∀ n, SameUpToOrder (env1.resolve n) (env2.resolve n))
    (hU : FiniteBelow env1 root U) : FiniteBelow env2 root U := by
  refine ⟨fun q hq i hi => ?_, fun n hn q hq => ?_⟩
  · have hs := sameUpToOrder_symm (hsame root)
    rw [hq] at hs
    obtain ⟨p, hp, _, _, hperm⟩ := sameUpToOrder_ok hs
    exact hU.1 p hp i (hperm.mem_iff.mp hi)
  · have hs := sameUpToOrder_symm (hsame n)
    rw [hq] at hs
    obtain ⟨p, hp, hpath, _, hperm⟩ := sameUpToOrder_ok hs
    obtain ⟨h1, h2⟩ := hU.2 n hn p hp
    exact ⟨by rw [hpath]; exact h1, fun i hi => h2 i (hperm.mem_iff.mp hi)⟩

/-- When the walk succeeds in one environment, a walk that returns in an environment that
differs in the order of the imports succeeds too, with the same map. -/
theorem walk_success_of_same (env1 env2 : Env) (root : String) (U : Finset String)
    (hsame : ∀ n, SameUpToOrder (env1.resolve n) (env2.resolve n))
    (hU : FiniteBelow env1 root U) (hc1 : RootCanonical env1 root)
    (hc2 : RootCanonical env2 root) (fuel : Nat) (S1 : Finset String) (r2 : Walked)
    (h1 : findDeps env1 fuel ∅ root = some (S1, none))
    (h2 : findDeps env2 fuel ∅ root = some r2) : r2 = (S1, none) := by
  have hsame2 : ∀ n, SameUpToOrder (env2.resolve n) (env1.resolve n) :=
    fun n => sameUpToOrder_symm (hsame n)
  obtain ⟨S2, err⟩ := r2
  cases err with
  | some e =>
    obtain ⟨n, hn, hres⟩ := (findDeps_sound env2 root fuel ∅ root _ Reached.root h2).2 e rfl
    obtain ⟨pkg, hok, _⟩ := walk_complete env1 root U hU hc1 fuel S1 h1 n
      (reached_of_same env2 env1 root hsame2 hn)
    have hs := hsame n
    rw [hok, hres] at hs
    exact hs.elim
  | none =>
    have hU2 := finiteBelow_of_same env1 env2 root U hsame hU
    have : S2 = S1 := by
      ext p
      rw [walk_marks env2 root U hU2 hc2 fuel S2 h2 p, walk_marks env1 root U hU hc1 fuel S1 h1 p]
      exact ⟨markable_of_same env2 env1 root hsame2, markable_of_same env1 env2 root hsame⟩
    rw [this]

theorem lookup_reversedImports (table : List (String × Package)) (n : String) :
    (reversedImports table).lookup n =
      (table.lookup n).map fun p => ⟨p.ImportPath, p.Imports.reverse, p.Goroot⟩ := by
  induction table with
  | nil => rfl
  | cons e rest ih =>
    obtain ⟨k, pkg⟩ := e
    unfold reversedImports at ih ⊢
    simp only [List.map_cons, List.lookup_cons]
    cases hk : n == k with
    | true => rfl
    | false => exact ih

theorem tableEnv_reversed_same (table : List (String × Package)) (n : String) :
    SameUpToOrder ((tableEnv table).resolve n)
      ((tableEnv (reversedImports table)).resolve n) := by
  rw [tableEnv_resolve, tableEnv_resolve, lookup_reversedImports]
  cases table.lookup n with
  | none => exact rfl
  | some p => exact ⟨rfl, rfl, (List.reverse_perm _).symm⟩

theorem ImportGraph.importPath_eq (g : ImportGraph) (cwd n : String) (pkg : Package)
    (h : (g.env cwd).resolve n = .ok pkg) : pkg.ImportPath = n := by
  rw [g.resolve_env] at h
  injection h with e
  rw [← e]

/-! ## Further theorems on the walk -/

/-- C11. Every key that a call of `findDeps` adds, whether the call succeeds or returns an
error, is the path of a package that was resolved with the base-distribution flag false;
so, the flag being a property of the path, a map that holds no base-distribution path
before the call holds none after it. -/
theorem findDeps_keeps_base_out (env : Env) (fuel : Nat) (soFar : Finset String)
    (name : String) (r : Walked) (h : findDeps env fuel soFar name = some r) :
    (∀ p ∈ r.1, p ∈ soFar ∨
      ∃ n pkg, env.resolve n = .ok pkg ∧ pkg.Goroot = false ∧ pkg.ImportPath = p) ∧
    (FlagByPath env → (∀ p ∈ soFar, ¬ BasePath env p) → ∀ p ∈ r.1, ¬ BasePath env p) := by
  have hadd := findDeps_adds_non_base env fuel soFar name r h
  refine ⟨hadd, fun hflag hbefore p hp => ?_⟩
  rcases hadd p hp with hin | ⟨n, pkg, hres, hg, hpath⟩
  · exact hbefore p hin
  · rintro ⟨m, q, hq, hqpath, hqg⟩
    have := hflag n m pkg q hres hq (by rw [hpath, hqpath])
    rw [hg, hqg] at this
    exact absurd this (by simp)

theorem findDeps_keeps_base_out_witness :
    ("host/org/dep" ∈ (∅ : Finset String) ∨
      ∃ n pkg, (withBase.env "/work").resolve n = .ok pkg ∧ pkg.Goroot = false ∧
        pkg.ImportPath = "host/org/dep") ∧
    ¬ BasePath (withBase.env "/work") "host/org/dep" :=
  ⟨(findDeps_keeps_base_out (withBase.env "/work") 3 ∅ "host/org/self"
      ({"host/org/dep", "host/org/self"}, none) (by decide)).1 "host/org/dep" (by decide),
    (findDeps_keeps_base_out (withBase.env "/work") 3 ∅ "host/org/self"
      ({"host/org/dep", "host/org/self"}, none) (by decide)).2
      (withBase.flagByPath "/work") (by simp) "host/org/dep" (by decide)⟩

/-- C12. When the name `findDeps` is called on resolves to a package of the base
distribution, the call returns success at once, at any depth of recursion allowed, with the
map as it was; and an error a walk returns is the error of resolving the root of the walk
or an import of a resolved package outside the base distribution, never that of a name
met only among the imports of base-distribution packages. -/
theorem findDeps_base_is_terminal (env : Env) :
    (∀ name pkg, env.resolve name = .ok pkg → pkg.Goroot = true →
      ∀ fuel soFar, findDeps env (fuel + 1) soFar name = some (soFar, none)) ∧
    (∀ fuel soFar root S e, findDeps env fuel soFar root = some (S, some e) →
      ∃ n, (n = root ∨ ∃ m pkg, env.resolve m = .ok pkg ∧ pkg.Goroot = false ∧
        n ∈ pkg.Imports) ∧ env.resolve n = .error e) :=
  ⟨fun name pkg hres hg fuel soFar => findDeps_of_goroot env name pkg hres hg fuel soFar,
    fun fuel soFar root S e h => findDeps_error_origin env fuel soFar root S e h⟩

theorem findDeps_base_is_terminal_witness :
    beneathBase.resolve "internal/missing" = .error "cannot find package internal/missing" ∧
    findDeps beneathBase 1 {"."} "fmt" = some ({"."}, none) ∧
    findDeps beneathBase 2 ∅ "." = some ({"."}, none) ∧
    ∃ n, (n = "." ∨ ∃ m pkg, missingDep.resolve m = .ok pkg ∧ pkg.Goroot = false ∧
      n ∈ pkg.Imports) ∧ missingDep.resolve n = .error "cannot find package host/org/missing" :=
  ⟨rfl,
    (findDeps_base_is_terminal beneathBase).1 "fmt" ⟨"fmt", ["internal/missing"], true⟩
      rfl rfl 0 {"."},
    by decide,
    (findDeps_base_is_terminal missingDep).2 3 ∅ "." {"host/org/dep", "."}
      "cannot find package host/org/missing" (by decide)⟩

/-- C13. The result of the walk does not depend on the order of the imports: on a finite import
graph, when the immediate imports of the packages are permuted, the walk from the
empty map still returns, succeeds exactly when it succeeded before, and on success leaves
the same map. -/
theorem findDeps_order_independent (env1 env2 : Env) (root : String) (U : Finset String)
    (fuel : Nat) (hsame : ∀ n, SameUpToOrder (env1.resolve n) (env2.resolve n))
    (hU : FiniteBelow env1 root U) (hc1 : RootCanonical env1 root)
    (hc2 : RootCanonical env2 root) (hfuel : U.card < fuel) :
    ∃ r1 r2, findDeps env1 fuel ∅ root = some r1 ∧ findDeps env2 fuel ∅ root = some r2 ∧
      (r1.2 = none ↔ r2.2 = none) ∧ (r1.2 = none → r1.1 = r2.1) := by
  have hU2 := finiteBelow_of_same env1 env2 root U hsame hU
  have hsame2 : ∀ n, SameUpToOrder (env2.resolve n) (env1.resolve n) :=
    fun n => sameUpToOrder_symm (hsame n)
  obtain ⟨r1, h1⟩ := findDeps_returns env1 root U hU fuel hfuel ∅
  obtain ⟨r2, h2⟩ := findDeps_returns env2 root U hU2 fuel hfuel ∅
  refine ⟨r1, r2, h1, h2, ⟨fun hn => ?_, fun hn => ?_⟩, fun hn => ?_⟩
  · obtain ⟨S1, e1⟩ := r1
    simp only at hn; subst hn
    rw [walk_success_of_same env1 env2 root U hsame hU hc1 hc2 fuel S1 r2 h1 h2]
  · obtain ⟨S2, e2⟩ := r2
    simp only at hn; subst hn
    rw [walk_success_of_same env2 env1 root U hsame2 hU2 hc2 hc1 fuel S2 r1 h2 h1]
  · obtain ⟨S1, e1⟩ := r1
    simp only at hn; subst hn
    rw [walk_success_of_same env1 env2 root U hsame hU hc1 hc2 fuel S1 r2 h1 h2]

theorem findDeps_order_independent_witness :
    ∃ r1 r2, findDeps (tableEnv diamondTable) 4 ∅ "." = some r1 ∧
      findDeps (tableEnv (reversedImports diamondTable)) 4 ∅ "." = some r2 ∧
      (r1.2 = none ↔ r2.2 = none) ∧ (r1.2 = none → r1.1 = r2.1) :=
  findDeps_order_independent (tableEnv diamondTable) (tableEnv (reversedImports diamondTable))
    "." {"host/org/a", "host/org/b", "host/org/c"} 4
    (tableEnv_reversed_same diamondTable)
    (tableEnv_finiteBelow _ _ _ (by decide) (by decide))
    (tableEnv_rootCanonical _ _ (by decide))
    (tableEnv_rootCanonical _ _ (by decide)) (by decide)

/-- C14. On a finite import graph whose resolver returns the requested name as the import
path, and for a root outside the base distribution, a walk from the empty map that
succeeds marks the root's own path and leaves exactly the root together with the paths
outside the base distribution that are reached from the root along imports of packages
outside the base distribution. -/
theorem findDeps_marks_root_and_closure (env : Env) (root : String) (U : Finset String)
    (fuel : Nat) (S : Finset String) (pkg0 : Package)
    (hU : FiniteBelow env root U)
    (hid : ∀ n pkg, env.resolve n = .ok pkg → pkg.ImportPath = n)
    (hroot : env.resolve root = .ok pkg0) (hg : pkg0.Goroot = false)
    (h : findDeps env fuel ∅ root = some (S, none)) :
    root ∈ S ∧
    ∀ p, p ∈ S ↔ (p = root ∨
      (Reached env root p ∧ ∃ pkg, env.resolve p = .ok pkg ∧ pkg.Goroot = false)) := by
  have hcanon : RootCanonical env root := by
    intro pkg hres
    rw [hid root pkg hres]; exact hres
  have hmarks := walk_marks env root U hU hcanon fuel S h
  have hrootmark : Markable env root root :=
    ⟨root, pkg0, Reached.root, hroot, hg, hid root pkg0 hroot⟩
  refine ⟨(hmarks root).mpr hrootmark, fun p => ?_⟩
  rw [hmarks p]
  constructor
  · rintro ⟨n, pkg, hr, hres, hgp, hpath⟩
    have hn : n = p := by rw [← hpath]; exact (hid n pkg hres).symm
    subst hn
    exact Or.inr ⟨hr, pkg, hres, hgp⟩
  · rintro (rfl | ⟨hr, pkg, hres, hgp⟩)
    · exact hrootmark
    · exact ⟨p, pkg, hr, hres, hgp, hid p pkg hres⟩

theorem findDeps_marks_root_and_closure_witness :
    "host/org/self" ∈ ({"host/org/dep", "host/org/self"} : Finset String) ∧
    ∀ p, p ∈ ({"host/org/dep", "host/org/self"} : Finset String) ↔ (p = "host/org/self" ∨
      (Reached (withBase.env "/work") "host/org/self" p ∧
        ∃ pkg, (withBase.env "/work").resolve p = .ok pkg ∧ pkg.Goroot = false)) :=
  findDeps_marks_root_and_closure (withBase.env "/work") "host/org/self"
    {"host/org/self", "fmt", "host/org/dep"} 3 {"host/org/dep", "host/org/self"}
    ⟨"host/org/self", ["fmt", "host/org/dep"], false⟩
    (withBase.finiteBelow "/work" "host/org/self" {"host/org/self", "fmt", "host/org/dep"}
      (by decide) (by decide))
    (withBase.importPath_eq "/work") rfl rfl (by decide)

end Glide

